import Mathlib

/-!
Verification development for the go-icedrive client library.

Byte strings are modelled as `List Nat` (each element a byte value < 256).
External cryptographic primitives (the Twofish block cipher, SHA-256,
HMAC-SHA256) come from outside the repository (`golang.org/x/crypto/twofish`,
`crypto/sha256`, `crypto/hmac`); they are modelled as explicit parameters:
the block cipher as a `BlockCipher` structure bundling the block-cipher
contract, the hashes as plain functions `List Nat → List Nat`.  Everything
the repository itself implements (CBC chaining, padding, hex, URL escaping,
base64, the solver loops, the HTTP retry wrapper, the endpoint wrappers) is
translated directly from the Go source.
-/

namespace Icedrive

instance {ε α : Type} [DecidableEq ε] [DecidableEq α] : DecidableEq (Except ε α) :=
  fun a b =>
    match a, b with
    | .ok x, .ok y =>
      if h : x = y then .isTrue (congrArg Except.ok h)
      else .isFalse fun hh => h (Except.ok.inj hh)
    | .error x, .error y =>
      if h : x = y then .isTrue (congrArg Except.error h)
      else .isFalse fun hh => h (Except.error.inj hh)
    | .ok _, .error _ => .isFalse fun hh => Except.noConfusion hh
    | .error _, .ok _ => .isFalse fun hh => Except.noConfusion hh

/-- Bytewise XOR, as used by the manual CBC loops in `api/crypto.go`. -/
def xorBytes (a b : List Nat) : List Nat :=
  List.zipWith (fun x y => x ^^^ y) a b

/-- All elements are byte values. -/
def bytesOk (l : List Nat) : Prop := ∀ x ∈ l, x < 256

instance (l : List Nat) : Decidable (bytesOk l) := by
  unfold bytesOk; infer_instance

/-- Lowercase hex digit for a value < 16 (Go `encoding/hex` encodes lowercase). -/
def hexDigitLower (n : Nat) : Nat :=
  if n < 10 then 48 + n else 87 + n

/-- Value of an ASCII hex digit, upper or lower case accepted
(Go `encoding/hex.DecodeString` accepts both). -/
def hexVal (ch : Nat) : Option Nat :=
  if 48 ≤ ch ∧ ch ≤ 57 then some (ch - 48)
  else if 97 ≤ ch ∧ ch ≤ 102 then some (ch - 87)
  else if 65 ≤ ch ∧ ch ≤ 70 then some (ch - 55)
  else none

/-- Go `hex.EncodeToString`: two lowercase hex digits per byte. -/
def hexEncode : List Nat → List Nat
  | [] => []
  | b :: rest => hexDigitLower (b / 16) :: hexDigitLower (b % 16) :: hexEncode rest

/-- Go `hex.DecodeString`: pairs of hex digits; odd length or an invalid
digit is an error (modelled as `none`). -/
def hexDecode : List Nat → Option (List Nat)
  | [] => some []
  | [_] => none
  | a :: b :: rest =>
    match hexVal a, hexVal b, hexDecode rest with
    | some x, some y, some tl => some ((16 * x + y) :: tl)
    | _, _, _ => none

/-- The byte set Go `net/url` leaves unescaped in a query component:
alphanumerics and `-` `_` `.` `~`. -/
def isUnreservedQueryByte (b : Nat) : Bool :=
  (48 ≤ b && b ≤ 57) || (65 ≤ b && b ≤ 90) || (97 ≤ b && b ≤ 122) ||
  b == 45 || b == 95 || b == 46 || b == 126

/-- Per-byte output of Go `url.QueryEscape`: unreserved bytes pass through,
a space becomes `+` (byte 43), everything else becomes `%` plus two
uppercase hex digits. -/
def escapeByte (b : Nat) : List Nat :=
  if isUnreservedQueryByte b then [b]
  else if b = 32 then [43]
  else
    [37,
     (if b / 16 < 10 then 48 + b / 16 else 55 + b / 16),
     (if b % 16 < 10 then 48 + b % 16 else 55 + b % 16)]

/-- Go `url.QueryEscape` over a byte string. -/
def queryEscape : List Nat → List Nat
  | [] => []
  | b :: rest => escapeByte b ++ queryEscape rest

/-- Go `url.QueryUnescape` (query-component mode): `%XY` decodes from two
hex digits (error when malformed or truncated), `+` decodes to a space,
anything else passes through. -/
def queryUnescape : List Nat → Option (List Nat)
  | [] => some []
  | c :: rest =>
    if c = 37 then
      match rest with
      | a :: b :: rest' =>
        match hexVal a, hexVal b, queryUnescape rest' with
        | some x, some y, some tl => some ((16 * x + y) :: tl)
        | _, _, _ => none
      | _ => none
    else if c = 43 then (32 :: ·) <$> queryUnescape rest
    else (c :: ·) <$> queryUnescape rest

/-- Strip trailing `0x00` bytes, as the `end` loop of `DecryptFilename` does. -/
def stripTrailingZeros (l : List Nat) : List Nat :=
  (l.reverse.dropWhile (· = 0)).reverse

/-- The contract of `twofish.NewCipher`'s result for one fixed key: a pair of
inverse permutations of 16-byte blocks.  The cipher itself lives in
`golang.org/x/crypto/twofish`, outside this repository. -/
structure BlockCipher where
  enc : List Nat → List Nat
  dec : List Nat → List Nat
  enc_len : ∀ b, b.length = 16 → (enc b).length = 16
  dec_len : ∀ b, b.length = 16 → (dec b).length = 16
  enc_bytes : ∀ b, b.length = 16 → bytesOk b → bytesOk (enc b)
  dec_bytes : ∀ b, b.length = 16 → bytesOk b → bytesOk (dec b)
  dec_enc : ∀ b, b.length = 16 → bytesOk b → dec (enc b) = b

/-- The fixed IV, ASCII `"1234567887654321"`. -/
def fixedIV : List Nat := [49, 50, 51, 52, 53, 54, 55, 56, 56, 55, 54, 53, 52, 51, 50, 49]

/-- The manual CBC encryption loop of `EncryptFilename`:
each plaintext block is XORed with the previous ciphertext block (initially
the IV) and then enciphered. -/
def cbcEncrypt (c : BlockCipher) (prev pt : List Nat) : List Nat :=
  if pt.length < 16 then []
  else
    let blk := c.enc (xorBytes (pt.take 16) prev)
    blk ++ cbcEncrypt c blk (pt.drop 16)
termination_by pt.length
decreasing_by simp [List.length_drop]; omega

/-- The manual CBC decryption loop of `DecryptFilename` (also what
`cipher.NewCBCDecrypter(...).CryptBlocks` computes): each ciphertext block is
deciphered and XORed with the previous ciphertext block (initially the IV). -/
def cbcDecrypt (c : BlockCipher) (prev ct : List Nat) : List Nat :=
  if ct.length < 16 then []
  else
    xorBytes (c.dec (ct.take 16)) prev ++ cbcDecrypt c (ct.take 16) (ct.drop 16)
termination_by ct.length
decreasing_by simp [List.length_drop]; omega

/-- CBC decryption of a short remainder is empty. -/
theorem cbcDecrypt_small (c : BlockCipher) (prev ct : List Nat)
    (h : ct.length < 16) : cbcDecrypt c prev ct = [] := by
  rw [cbcDecrypt, if_pos h]

/-- One CBC decryption step on an explicit leading block. -/
theorem cbcDecrypt_block (c : BlockCipher) (prev blk rest : List Nat)
    (h : blk.length = 16) :
    cbcDecrypt c prev (blk ++ rest) =
      xorBytes (c.dec blk) prev ++ cbcDecrypt c blk rest := by
  have ht : (blk ++ rest).take 16 = blk := by
    rw [← h]; exact List.take_left blk rest
  have hd : (blk ++ rest).drop 16 = rest := by
    rw [← h]; exact List.drop_left blk rest
  rw [cbcDecrypt, ht, hd, if_neg (by simp [h])]

/-- CBC decryption of a single block. -/
theorem cbcDecrypt_single (c : BlockCipher) (prev blk : List Nat)
    (h : blk.length = 16) :
    cbcDecrypt c prev blk = xorBytes (c.dec blk) prev := by
  have hb := cbcDecrypt_block c prev blk [] h
  rw [List.append_nil] at hb
  rw [hb, cbcDecrypt_small c blk [] (by simp), List.append_nil]

/-- One CBC encryption step on an explicit leading block. -/
theorem cbcEncrypt_block (c : BlockCipher) (prev blk rest : List Nat)
    (h : blk.length = 16) :
    cbcEncrypt c prev (blk ++ rest) =
      c.enc (xorBytes blk prev) ++ cbcEncrypt c (c.enc (xorBytes blk prev)) rest := by
  have ht : (blk ++ rest).take 16 = blk := by
    rw [← h]; exact List.take_left blk rest
  have hd : (blk ++ rest).drop 16 = rest := by
    rw [← h]; exact List.drop_left blk rest
  rw [cbcEncrypt, ht, hd, if_neg (by simp [h])]

/-- CBC encryption of a short remainder is empty. -/
theorem cbcEncrypt_small (c : BlockCipher) (prev pt : List Nat)
    (h : pt.length < 16) : cbcEncrypt c prev pt = [] := by
  rw [cbcEncrypt, if_pos h]

/-- `EncryptFilename` from `api/crypto.go`: decode the hex key (error unless
it decodes to 32 bytes), URL-escape the filename with `url.QueryEscape`, pad
with `0x00` to a multiple of 16 (adding nothing when already a multiple,
including the empty case), CBC-encrypt under the fixed IV, hex-encode.
The block cipher for the decoded key is the `c` parameter. -/
def EncryptFilename (c : BlockCipher) (keyHex : List Nat) (filename : List Nat) :
    Except String (List Nat) :=
  match hexDecode keyHex with
  | none => .error "invalid key hex"
  | some key =>
    if key.length ≠ 32 then .error "key must decode to 32 bytes (64 hex chars)"
    else
      let escaped := queryEscape filename
      let padLen := if 16 - escaped.length % 16 = 16 then 0 else 16 - escaped.length % 16
      let plain := escaped ++ List.replicate padLen 0
      .ok (hexEncode (cbcEncrypt c fixedIV plain))

/-- `DecryptFilename` from `api/crypto.go`: decode the hex key and hex
ciphertext (errors as in the source), CBC-decrypt under the fixed IV, strip
trailing `0x00` bytes, URL-unescape; when unescaping fails the raw trimmed
bytes are returned. -/
def DecryptFilename (c : BlockCipher) (keyHex : List Nat) (cipherHex : List Nat) :
    Except String (List Nat) :=
  match hexDecode keyHex with
  | none => .error "invalid key hex"
  | some key =>
    if key.length ≠ 32 then .error "key must decode to 32 bytes (64 hex chars)"
    else
      match hexDecode cipherHex with
      | none => .error "invalid ciphertext hex"
      | some ct =>
        if ct.length % 16 ≠ 0 then .error "ciphertext not multiple of block size"
        else
          let pt := cbcDecrypt c fixedIV ct
          let trimmed := stripTrailingZeros pt
          match queryUnescape trimmed with
          | none => .ok trimmed
          | some decoded => .ok decoded

/-! ### The streaming Twofish-CBC decryptor (`DecryptTwofishCBCStream`)

The Go function reads from an `io.Reader` into a 128 KiB buffer.  The reader
is modelled as an in-memory byte list: each `Read` returns
`min (remaining, 131072)` bytes.  The `io.Reader` contract permits two
deliveries of end-of-stream, and the function behaves differently under
them, so the model carries a flag `sep`: with `sep = false` the read that
yields the final bytes also reports `io.EOF`, while with `sep = true` the
final bytes come with a nil error and `io.EOF` arrives alone on one further
empty read — the behaviour of `bytes.Reader` and of chunked HTTP response
bodies.  (A reader position exhausting the source returns `(0, io.EOF)` in
both modes.) -/

/-- The chunk-boundary step of the body loop: when the remaining chunk
budget hits zero the CBC decrypter is re-created from the content IV and the
budget reset to 4 MiB; otherwise the chain state and budget carry on. -/
def nextState (iv prev1 : List Nat) (cr1 : Nat) : List Nat × Nat :=
  if cr1 = 0 then (iv, 4194304) else (prev1, cr1)

/-- One pass of the `for len(data) >= blockSize` loop: carve off
`min(len(data), chunkRemaining)` rounded down to a block multiple, CBC-decrypt
it, emit it (stripping `numPadding` bytes when this is the last data of the
stream), decrement `chunkRemaining` and re-seed the CBC decrypter from the
content IV at each 4 MiB chunk boundary.  Returns
`(carry, prev, chunkRemaining, wroteAny, out)`. -/
def innerLoop (c : BlockCipher) (iv : List Nat) (pad : Nat) (isEOF : Bool)
    (data prev : List Nat) (cr : Nat) (wa : Bool) (out : List Nat) :
    Except String (List Nat × List Nat × Nat × Bool × List Nat) :=
  if data.length < 16 then .ok (data, prev, cr, wa, out)
  else
    let t := min data.length cr / 16 * 16
    if ht : t = 0 then .ok (data, prev, cr, wa, out)
    else
      let seg := data.take t
      let o := cbcDecrypt c prev seg
      let prev1 := seg.drop (t - 16)
      let data1 := data.drop t
      let cr1 := cr - t
      let lastRead := isEOF && data1.isEmpty
      if lastRead then
        if pad > o.length then .error "invalid padding"
        else
          let b := o.take (o.length - pad)
          .ok (data1, prev1, cr1, wa || !b.isEmpty, out ++ b)
      else
        let st := nextState iv prev1 cr1
        innerLoop c iv pad isEOF data1 st.1 st.2 (wa || !o.isEmpty) (out ++ o)
termination_by data.length
decreasing_by
  simp only [List.length_drop]
  omega

/-- The outer `for { n, rerr := src.Read(buf); ... }` loop of
`DecryptTwofishCBCStream`, over the modelled reader.  `sep` selects the
reader's legal `io.EOF` delivery: `false` reports `io.EOF` with the final
bytes (so `rerr = io.EOF` while the last data is processed), `true` reports
the final bytes with a nil error and `io.EOF` alone on a subsequent empty
read (the `src.isEmpty` branch), as `bytes.Reader` and chunked HTTP bodies
do — in which case `lastRead` is false on every processed block. -/
def outerLoop (c : BlockCipher) (iv : List Nat) (pad : Nat) (sep : Bool)
    (carry prev : List Nat) (cr : Nat) (wa : Bool) (out : List Nat)
    (src : List Nat) : Except String (List Nat) :=
  if hsrc : src.isEmpty then
    if !carry.isEmpty then .error "unexpected EOF"
    else if !wa && pad ≠ 0 then .error "unexpected empty body"
    else .ok out
  else
    let n := min src.length 131072
    let isEOF := !sep && src.length ≤ 131072
    let data := carry ++ src.take n
    match innerLoop c iv pad isEOF data prev cr wa out with
    | .error e => .error e
    | .ok (carry1, prev1, cr1, wa1, out1) =>
      if isEOF then
        if !carry1.isEmpty then .error "unexpected EOF"
        else if !wa1 && pad ≠ 0 then .error "unexpected empty body"
        else .ok out1
      else outerLoop c iv pad sep carry1 prev1 cr1 wa1 out1 (src.drop n)
termination_by src.length
decreasing_by
  simp only [List.length_drop]
  simp only [List.isEmpty_iff] at hsrc
  have : 0 < src.length := List.length_pos.mpr hsrc
  omega

/-- `DecryptTwofishCBCStream` from `api/crypto.go` (the
`cipher.NewCBCDecrypter` variant): check the key length, read exactly 32
header cipher bytes (error when fewer are available), CBC-decrypt them under
the fixed IV, take bytes 0..15 as the content IV and byte 16 as the padding
count, reject a nonzero version byte 17, then run the chunked streaming body
decryption.  `c` is the Twofish cipher for `key`; `sep` is the reader's
`io.EOF` delivery mode (see `outerLoop`). -/
def DecryptTwofishCBCStream (c : BlockCipher) (sep : Bool) (key src : List Nat) :
    Except String (List Nat) :=
  if key.length ≠ 16 ∧ key.length ≠ 24 ∧ key.length ≠ 32 then
    .error "invalid key length"
  else if src.length < 32 then .error "short header"
  else
    let headerPlain := cbcDecrypt c fixedIV (src.take 32)
    let contentIV := headerPlain.take 16
    let pad := headerPlain.getD 16 0
    if headerPlain.getD 17 0 ≠ 0 then .error "unsupported file version"
    else outerLoop c contentIV pad sep [] contentIV (4194304 - 32) false [] (src.drop 32)

/-- Reference body decryption: the same batch structure as the stream loop
(batches bounded by the remaining chunk budget, CBC chain carried through a
batch, re-seeded from the content IV at each 4 MiB boundary), independent of
read boundaries.  Returns `(plaintext, prev, chunkRemaining)`. -/
def procBody (c : BlockCipher) (iv prev : List Nat) (cr : Nat) (data : List Nat) :
    List Nat × List Nat × Nat :=
  if data.length < 16 then ([], prev, cr)
  else
    let t := min data.length cr / 16 * 16
    if ht : t = 0 then ([], prev, cr)
    else
      let seg := data.take t
      let o := cbcDecrypt c prev seg
      let st := nextState iv (seg.drop (t - 16)) (cr - t)
      let r := procBody c iv st.1 st.2 (data.drop t)
      (o ++ r.1, r.2)
termination_by data.length
decreasing_by
  simp only [List.length_drop]
  omega

/-- The decrypted 32-byte stream header of a ciphertext. -/
def streamHeaderPlain (c : BlockCipher) (src : List Nat) : List Nat :=
  cbcDecrypt c fixedIV (src.take 32)

/-- The full (unstripped) body plaintext of a ciphertext stream, per the
code's chunked CBC scheme. -/
def streamBodyPlain (c : BlockCipher) (src : List Nat) : List Nat :=
  let civ := (streamHeaderPlain c src).take 16
  (procBody c civ civ (4194304 - 32) (src.drop 32)).1

/-- Drop the last `pad` bytes. -/
def stripLast (pad : Nat) (l : List Nat) : List Nat := l.take (l.length - pad)

/-! ### Proof-of-work solver (`api/proof-of-work.go`) -/

/-- Big-endian 4-byte encoding of a `uint32` counter, as the four
`byte(counter >> k)` stores build it. -/
def be32 (n : Nat) : List Nat :=
  [n >>> 24 &&& 255, n >>> 16 &&& 255, n >>> 8 &&& 255, n &&& 255]

/-- `countLeadingZeroBits` inner loop: zero bits of `b` from bit `n-1`
downwards until the first one bit. -/
def lzbAux (b : Nat) : Nat → Nat
  | 0 => 0
  | n + 1 => if (b >>> n) &&& 1 = 0 then 1 + lzbAux b n else 0

/-- `countLeadingZeroBits` from `api/proof-of-work.go`: walk bytes MSB-first
until the first one bit; a full zero byte contributes 8. -/
def countLeadingZeroBits : List Nat → Nat
  | [] => 0
  | b :: rest => if b = 0 then 8 + countLeadingZeroBits rest else lzbAux b 8

/-- Base64 url-safe alphabet (RFC 4648 `-`/`_`). -/
def b64UrlChar (n : Nat) : Nat :=
  if n < 26 then 65 + n
  else if n < 52 then 97 + (n - 26)
  else if n < 62 then 48 + (n - 52)
  else if n = 62 then 45 else 95

/-- Go `base64.RawURLEncoding.EncodeToString` (no padding). -/
def base64urlEncode : List Nat → List Nat
  | a :: b :: cc :: rest =>
    b64UrlChar (a >>> 2) :: b64UrlChar (((a &&& 3) <<< 4) ||| (b >>> 4)) ::
    b64UrlChar (((b &&& 15) <<< 2) ||| (cc >>> 6)) :: b64UrlChar (cc &&& 63) ::
    base64urlEncode rest
  | [a, b] =>
    [b64UrlChar (a >>> 2), b64UrlChar (((a &&& 3) <<< 4) ||| (b >>> 4)),
     b64UrlChar ((b &&& 15) <<< 2)]
  | [a] => [b64UrlChar (a >>> 2), b64UrlChar ((a &&& 3) <<< 4)]
  | [] => []

/-- Value of a base64 url-safe alphabet character. -/
def b64UrlVal (ch : Nat) : Option Nat :=
  if 65 ≤ ch ∧ ch ≤ 90 then some (ch - 65)
  else if 97 ≤ ch ∧ ch ≤ 122 then some (ch - 71)
  else if 48 ≤ ch ∧ ch ≤ 57 then some (ch + 4)
  else if ch = 45 then some 62
  else if ch = 95 then some 63
  else none

/-- Go `base64.RawURLEncoding.DecodeString`: quads of characters decode to
three bytes; a final remainder of 3 or 2 characters decodes to 2 or 1 bytes;
a remainder of 1 character or an invalid character is an error. -/
def base64urlDecode : List Nat → Option (List Nat)
  | a :: b :: cc :: d :: rest => do
    let x ← b64UrlVal a
    let y ← b64UrlVal b
    let z ← b64UrlVal cc
    let w ← b64UrlVal d
    let tl ← base64urlDecode rest
    pure (((x <<< 2) ||| (y >>> 4)) :: (((y &&& 15) <<< 4) ||| (z >>> 2)) ::
      (((z &&& 3) <<< 6) ||| w) :: tl)
  | [a, b, cc] => do
    let x ← b64UrlVal a
    let y ← b64UrlVal b
    let z ← b64UrlVal cc
    pure [((x <<< 2) ||| (y >>> 4)), (((y &&& 15) <<< 4) ||| (z >>> 2))]
  | [a, b] => do
    let x ← b64UrlVal a
    let y ← b64UrlVal b
    pure [(x <<< 2) ||| (y >>> 4)]
  | [_] => none
  | [] => some []

/-- `POWChallenge` from `api/proof-of-work.go`. -/
structure POWChallenge where
  challenge : List Nat
  difficultyBits : Int
  exp : Nat
  scope : List Nat
  token : List Nat

/-- Failure modes of `SolvePOWChallenge`. -/
inductive POWError
  | invalidDifficulty
  | badChallenge
  | counterOverflow
deriving DecidableEq

/-- The brute-force counter loop of `SolvePOWChallenge`: try counters from
`counter` upwards; the increment follows `uint32` wrap-around, and reaching 0
again is the overflow failure.  `fuel` only bounds the recursion; with
`fuel ≥ 2^32 - counter` it is never the reason the loop stops. -/
def powLoop (sha : List Nat → List Nat) (bits : Int) (base : List Nat) :
    Nat → Nat → Option Nat
  | _, 0 => none
  | counter, fuel + 1 =>
    if (countLeadingZeroBits (sha (base ++ be32 counter)) : Int) ≥ bits then
      some counter
    else if counter + 1 = 2 ^ 32 then none
    else powLoop sha bits base (counter + 1) fuel

/-- `SolvePOWChallenge` from `api/proof-of-work.go`.  `sha` stands for
`crypto/sha256`; `rand12` is the 12 random bytes drawn by `rand.Read`. -/
def SolvePOWChallenge (sha : List Nat → List Nat) (rand12 : List Nat)
    (ch : POWChallenge) : Except POWError (List Nat × List Nat) :=
  if ch.difficultyBits ≤ 0 ∨ 256 < ch.difficultyBits then .error .invalidDifficulty
  else
    match base64urlDecode ch.challenge with
    | none => .error .badChallenge
    | some challengeBytes =>
      let base := challengeBytes ++ rand12
      match powLoop sha ch.difficultyBits base 0 (2 ^ 32) with
      | some counter =>
        .ok (base64urlEncode (rand12 ++ be32 counter),
             hexEncode (sha (base ++ be32 counter)))
      | none => .error .counterOverflow

/-! ### Legacy proof-of-work (`ComputeProofOfWork`, `api/proof-of-work.go`) -/

/-- ASCII bytes of a Lean string literal. -/
def asciiBytes (s : String) : List Nat := s.data.map Char.toNat

/-- Digit recursion for `natToDecimal`; the fuel only bounds the recursion
depth (one step per digit) and `natToDecimal` supplies enough of it. -/
def natToDecimalAux : Nat → Nat → List Nat
  | 0, n => [48 + n % 10]
  | fuel + 1, n => if n < 10 then [48 + n] else natToDecimalAux fuel (n / 10) ++ [48 + n % 10]

/-- Go `strconv.FormatUint(n, 10)` / JSON number rendering of a natural:
decimal digits, most significant first. -/
def natToDecimal (n : Nat) : List Nat := natToDecimalAux n n

/-- JSON rendering of a Go `int`. -/
def intToDecimal (i : Int) : List Nat :=
  if i < 0 then 45 :: natToDecimal i.natAbs else natToDecimal i.toNat

/-- `encoding/json` escaping of one string byte (the default encoder escapes
quote, backslash, control characters and the HTML characters. -/
def jsonEscapeByte (b : Nat) : List Nat :=
  if b = 34 then [92, 34]
  else if b = 92 then [92, 92]
  else if b = 10 then [92, 110]
  else if b = 13 then [92, 114]
  else if b = 9 then [92, 116]
  else if b < 32 ∨ b = 60 ∨ b = 62 ∨ b = 38 then
    [92, 117, 48, 48, hexDigitLower (b / 16), hexDigitLower (b % 16)]
  else [b]

/-- `encoding/json` escaping of a string body. -/
def jsonEscape : List Nat → List Nat
  | [] => []
  | b :: rest => jsonEscapeByte b ++ jsonEscape rest

/-- `json.Marshal` of a string: quoted, escaped. -/
def jsonQuote (s : List Nat) : List Nat := 34 :: jsonEscape s ++ [34]

/-- Bytewise (Go string) order, as `sort.Strings` uses. -/
def lexLe : List Nat → List Nat → Bool
  | [], _ => true
  | _ :: _, [] => false
  | a :: as, b :: bs => if a < b then true else if b < a then false else lexLe as bs

/-- Insertion into a `lexLe`-sorted list. -/
def insertSorted (x : List Nat) : List (List Nat) → List (List Nat)
  | [] => [x]
  | y :: ys => if lexLe x y then x :: y :: ys else y :: insertSorted x ys

/-- `sort.Strings`. -/
def sortStrings (l : List (List Nat)) : List (List Nat) :=
  l.foldr insertSorted []

/-- `Payload` from `api/proof-of-work.go` (`nonce`, `expires` are `uint64`,
`difficulty` is `int`). -/
structure Payload where
  challenge : List Nat
  nonce : Nat
  hash : List Nat
  difficulty : Int
  expires : Nat

/-- The five map entries `stableStringifyPayload` builds, keyed by the JSON
field names, each value rendered as `json.Marshal` renders it. -/
def payloadEntries (p : Payload) : List (List Nat × List Nat) :=
  [(asciiBytes "challenge", jsonQuote p.challenge),
   (asciiBytes "difficulty", intToDecimal p.difficulty),
   (asciiBytes "expires", natToDecimal p.expires),
   (asciiBytes "hash", jsonQuote p.hash),
   (asciiBytes "nonce", natToDecimal p.nonce)]

/-- Comma-join rendered `key:value` pairs. -/
def joinComma : List (List Nat) → List Nat
  | [] => []
  | [x] => x
  | x :: xs => x ++ 44 :: joinComma xs

/-- `stableStringifyPayload`: collect the map keys, sort them with
`sort.Strings`, and emit `{"k":v,...}` in that order. -/
def stableStringifyPayload (p : Payload) : List Nat :=
  let entries := payloadEntries p
  let keys := sortStrings (entries.map Prod.fst)
  let rendered := keys.map fun k =>
    jsonQuote k ++ 58 :: (((entries.find? fun e => e.1 == k).map Prod.snd).getD [])
  123 :: joinComma rendered ++ [125]

/-- The nonce brute-force loop of `ComputeProofOfWork`: smallest `uint64`
nonce whose hash hex starts with four `'0'` characters.  The Go loop has no
termination check (the counter wraps mod 2^64); `fuel` bounds the recursion,
and exhausting it models non-termination. -/
def legacyLoop (sha : List Nat → List Nat) : Nat → Nat → Option (Nat × List Nat)
  | _, 0 => none
  | nonce, fuel + 1 =>
    let h := hexEncode (sha (asciiBytes "proof-of-work" ++ natToDecimal nonce))
    if (List.replicate 4 48).isPrefixOf h then some (nonce, h)
    else legacyLoop sha ((nonce + 1) % 2 ^ 64) fuel

/-- `json.Marshal` of `Payload`: fields in struct declaration order. -/
def payloadJson (p : Payload) : List Nat :=
  123 :: jsonQuote (asciiBytes "challenge") ++ 58 :: jsonQuote p.challenge ++
  44 :: jsonQuote (asciiBytes "nonce") ++ 58 :: natToDecimal p.nonce ++
  44 :: jsonQuote (asciiBytes "hash") ++ 58 :: jsonQuote p.hash ++
  44 :: jsonQuote (asciiBytes "difficulty") ++ 58 :: intToDecimal p.difficulty ++
  44 :: jsonQuote (asciiBytes "expires") ++ 58 :: natToDecimal p.expires ++ [125]

/-- `json.Marshal` of `Final`: the payload then the signature. -/
def finalJson (p : Payload) (sigHex : List Nat) : List Nat :=
  123 :: jsonQuote (asciiBytes "payload") ++ 58 :: payloadJson p ++
  44 :: jsonQuote (asciiBytes "signature") ++ 58 :: jsonQuote sigHex ++ [125]

/-- Standard base64 alphabet character. -/
def b64StdChar (n : Nat) : Nat :=
  if n < 26 then 65 + n
  else if n < 52 then 97 + (n - 26)
  else if n < 62 then 48 + (n - 52)
  else if n = 62 then 43 else 47

/-- Go `base64.StdEncoding.EncodeToString` (with `=` padding). -/
def base64stdEncode : List Nat → List Nat
  | a :: b :: cc :: rest =>
    b64StdChar (a >>> 2) :: b64StdChar (((a &&& 3) <<< 4) ||| (b >>> 4)) ::
    b64StdChar (((b &&& 15) <<< 2) ||| (cc >>> 6)) :: b64StdChar (cc &&& 63) ::
    base64stdEncode rest
  | [a, b] =>
    [b64StdChar (a >>> 2), b64StdChar (((a &&& 3) <<< 4) ||| (b >>> 4)),
     b64StdChar ((b &&& 15) <<< 2), 61]
  | [a] => [b64StdChar (a >>> 2), b64StdChar ((a &&& 3) <<< 4), 61, 61]
  | [] => []

/-- `ComputeProofOfWork` from `api/proof-of-work.go`.  `sha` stands for
`crypto/sha256` and `hmac` for `crypto/hmac` HMAC-SHA256 (message, key);
`uint64` arithmetic wraps mod 2^64. -/
def ComputeProofOfWork (sha : List Nat → List Nat)
    (hmac : List Nat → List Nat → List Nat) (fuel : Nat)
    (serverTimeSec : Nat) (hmacKeyHex : List Nat) : Except String (List Nat) :=
  let serverTimeMs := serverTimeSec * 1000 % 2 ^ 64
  let expires := (serverTimeMs + 60000) % 2 ^ 64
  match legacyLoop sha 0 fuel with
  | none => .error "nonce search did not terminate"
  | some (nonce, hash) =>
    let payload : Payload := ⟨asciiBytes "proof-of-work", nonce, hash, 4, expires⟩
    let stable := stableStringifyPayload payload
    match hexDecode hmacKeyHex with
    | none => .error "invalid hmac key hex"
    | some key => .ok (base64stdEncode (finalJson payload (hexEncode (hmac stable key))))

/-! ### HTTP sender auth-retry wrapper (`api/http.go`) -/

/-- The observable result of one execution of an HTTP operation, as
`withRetryOnAuthError` inspects it: the status code, whether a body is
present, whether `tryParseAPIError` on the body yields an auth error
(`error:true, code:1001`), and whether a transport error occurred. -/
structure OpResult where
  status : Nat
  hasBody : Bool
  authErrBody : Bool
  transportErr : Bool
deriving DecidableEq

/-- The second check of `withRetryOnAuthError`: an API-level auth error in
the JSON body triggers one re-login and one retry; a failed or absent
re-login returns the original result.  The result is
`(returned result, executions of the operation, re-login invocations)`. -/
def retrySecondPhase (op : Nat → OpResult) (relogin : Option Bool)
    (r : OpResult) (rlCount : Nat) : OpResult × Nat × Nat :=
  if !r.transportErr && r.hasBody then
    if r.authErrBody then
      match relogin with
      | some true => (op 1, 2, rlCount + 1)
      | some false => (r, 1, rlCount + 1)
      | none => (r, 1, rlCount)
    else (r, 1, rlCount)
  else (r, 1, rlCount)

/-- `withRetryOnAuthError` from `api/http.go`: execute the operation once
(`op 0`); on a wire-level 401/403 with a registered re-login that succeeds,
re-execute exactly once (`op 1`) and return that result; otherwise fall
through to the JSON-body auth check.  `relogin` models the registered
re-login function (`none` = absent, `some b` = present with outcome `b`).
`op i` is the result of the i-th execution. -/
def withRetryOnAuthError (op : Nat → OpResult) (relogin : Option Bool) :
    OpResult × Nat × Nat :=
  let r := op 0
  if !r.transportErr && (r.status == 401 || r.status == 403) then
    match relogin with
    | some true => (op 1, 2, 1)
    | some false => retrySecondPhase op relogin r 1
    | none => retrySecondPhase op relogin r 0
  else retrySecondPhase op relogin r 0

/-! ### Endpoint wrappers

Network interaction is modelled with an explicit environment: each wrapper
takes the server's responses as parameters and returns, besides its result,
the list of HTTP requests it issued (method, target, and the bearer token its
`addHeaders` attached).  The sender's auth-retry layer is modelled separately
by `withRetryOnAuthError`; the wrappers below model the exchange with no
registered re-login function, under which each `httpGET`/`httpPOST` performs
exactly one request. -/

/-- ASCII whitespace, as `strings.TrimSpace` strips it. -/
def isSpaceByte (b : Nat) : Bool :=
  b == 32 || b == 9 || b == 10 || b == 11 || b == 12 || b == 13

/-- `strings.TrimSpace` over a byte string. -/
def trimSpace (l : List Nat) : List Nat :=
  ((l.dropWhile isSpaceByte).reverse.dropWhile isSpaceByte).reverse

/-- The sender state shared by the wrappers (`HTTPClient` fields they read). -/
structure Session where
  bearer : List Nat
  cryptoKeyHex : List Nat

/-- One issued HTTP request: method, target, and the bearer attached by
`addHeaders` (the empty list meaning no `Authorization` header). -/
structure Request where
  method : List Nat
  target : List Nat
  bearer : List Nat
deriving DecidableEq

/-- `Item` from `api/collection.go` (the fields the verified operations
read). -/
structure Item where
  uid : List Nat
  filename : List Nat
deriving DecidableEq

/-- `CollectionResponse` from `api/collection.go`. -/
structure CollectionResponse where
  error : Bool
  code : Int
  message : List Nat
  data : List Item

/-- The server's answer to the `/collection` request. -/
structure CollEnv where
  transportErr : Bool
  status : Nat
  parse : Option CollectionResponse

/-- `GetCollection` from `api/collection.go`: reject a blank bearer, reject
any collection type other than `cloud` and `crypto` (both before any network
I/O), then issue the GET; on `type=crypto`, post-process each item's
filename through `DecryptFilename`, keeping the field as-is when decryption
fails. -/
def GetCollection (c : BlockCipher) (st : Session) (env : CollEnv)
    (folderID : Nat) (cType : List Nat) :
    Except String CollectionResponse × List Request :=
  if trimSpace st.bearer = [] then
    (.error "missing bearer token; call Login first", [])
  else if cType ≠ asciiBytes "cloud" ∧ cType ≠ asciiBytes "crypto" then
    (.error "invalid collection type", [])
  else
    let req : Request :=
      ⟨asciiBytes "GET",
       asciiBytes "/collection?folderId=" ++ natToDecimal folderID ++
         asciiBytes "&type=" ++ cType,
       st.bearer⟩
    if env.transportErr then (.error "transport error", [req])
    else if 400 ≤ env.status then (.error "collection request failed", [req])
    else
      match env.parse with
      | none => (.error "unmarshal error", [req])
      | some resp =>
        if resp.error then (.error "collection error", [req])
        else if cType = asciiBytes "crypto" then
          let fixed := resp.data.map fun it =>
            match DecryptFilename c st.cryptoKeyHex it.filename with
            | .ok d => { it with filename := d }
            | .error _ => it
          (.ok { resp with data := fixed }, [req])
        else (.ok resp, [req])

/-- `DownloadURLEntry` from `api/download.go` (fields read by the verified
operations). -/
structure DownloadURLEntry where
  filename : List Nat
  filesize : Nat
  url : List Nat
deriving DecidableEq

/-- The server's answer to `/download-multi`: `(error flag, urls)`. -/
structure DLEnv where
  transportErr : Bool
  status : Nat
  parse : Option (Bool × List DownloadURLEntry)

/-- `GetDownloadURLs` from `api/download.go`: reject a blank bearer before
any network I/O, then POST the multipart `items`/`crypto` form to
`/download-multi` and require a non-error response with at least one URL. -/
def GetDownloadURLs (st : Session) (env : DLEnv) (itemUIDs : List (List Nat))
    (crypto : Bool) : Except String (List DownloadURLEntry) × List Request :=
  if trimSpace st.bearer = [] then
    (.error "missing bearer token; call Login first", [])
  else
    let req : Request := ⟨asciiBytes "POST", asciiBytes "/download-multi", st.bearer⟩
    if env.transportErr then (.error "transport error", [req])
    else if 400 ≤ env.status then (.error "download-multi failed", [req])
    else
      match env.parse with
      | none => (.error "unmarshal error", [req])
      | some (errFlag, urls) =>
        if errFlag then (.error "download-multi error", [req])
        else if urls.isEmpty then (.error "download-multi returned no urls", [req])
        else (.ok urls, [req])

/-- The server's answer to `/geo-fileserver-list`: `(error flag, upload
endpoints)`. -/
structure GeoEnv where
  transportErr : Bool
  status : Nat
  parse : Option (Bool × List (List Nat))

/-- `GetUploadEndpoints` from `api/uploads.go`.  Note: no bearer check —
the GET is issued regardless of the session's bearer token. -/
def GetUploadEndpoints (st : Session) (env : GeoEnv) :
    Except String (List (List Nat)) × List Request :=
  let req : Request := ⟨asciiBytes "GET", asciiBytes "/geo-fileserver-list", st.bearer⟩
  if env.transportErr then (.error "transport error", [req])
  else if 400 ≤ env.status then (.error "geo-fileserver-list failed", [req])
  else
    match env.parse with
    | none => (.error "unmarshal error", [req])
    | some (errFlag, endpoints) =>
      if errFlag then (.error "geo-fileserver-list error", [req])
      else (.ok endpoints, [req])

/-- `UploadResponse` from `api/uploads.go` (fields the wrapper checks). -/
structure UploadResponse where
  error : Bool
  message : List Nat
deriving DecidableEq

/-- Environment of `UploadFile`: the `/geo-fileserver-list` answer, the
result of opening and reading the local file, and the upload endpoint's
answer to the multipart POST. -/
structure UploadEnv where
  geo : GeoEnv
  fileOpen : Except String (List Nat)
  postTransportErr : Bool
  postStatus : Nat
  postParse : Option UploadResponse

/-- `UploadFile` from `api/uploads.go`: fetch the upload endpoints (this is
the first thing the function does — there is no bearer check), take the
first endpoint, open the local file, and stream the multipart form
(`folderId`, `moddate`, `files[]`) to the endpoint.  The multipart body
contents are not tracked by the request log model. -/
def UploadFile (st : Session) (env : UploadEnv) (folderID : Nat)
    (filename : List Nat) : Except String UploadResponse × List Request :=
  match GetUploadEndpoints st env.geo with
  | (.error _, reqs) => (.error "no upload endpoints", reqs)
  | (.ok endpoints, reqs) =>
    if endpoints.isEmpty then (.error "no upload endpoints", reqs)
    else
      let endpoint := endpoints.headD []
      match env.fileOpen with
      | .error e => (.error e, reqs)
      | .ok _content =>
        let req : Request := ⟨asciiBytes "POST", endpoint, st.bearer⟩
        let reqs1 := reqs ++ [req]
        if env.postTransportErr then (.error "transport error", reqs1)
        else if 400 ≤ env.postStatus then (.error "upload failed", reqs1)
        else
          match env.postParse with
          | none => (.error "unmarshal error", reqs1)
          | some out =>
            if out.error then (.error "upload error", reqs1)
            else (.ok out, reqs1)

/-- `User` from `api/user-data.go` (fields irrelevant to the verified
properties are omitted). -/
structure User where
  id : Int
  email : List Nat
deriving DecidableEq

/-- The server's answer to `/user-data`. -/
structure UDEnv where
  transportErr : Bool
  status : Nat
  parse : Option User

/-- `UserData` from `api/user-data.go`: reject a blank bearer before any
network I/O, then GET `/user-data` and parse the user profile. -/
def UserData (st : Session) (env : UDEnv) : Except String User × List Request :=
  if trimSpace st.bearer = [] then
    (.error "missing bearer token; call Login first", [])
  else
    let req : Request :=
      ⟨asciiBytes "GET", asciiBytes "https://apis.icedrive.net/v3/webapp/user-data",
       st.bearer⟩
    if env.transportErr then (.error "transport error", [req])
    else if 400 ≤ env.status then (.error "user-data request failed", [req])
    else
      match env.parse with
      | none => (.error "unmarshal error", [req])
      | some u => (.ok u, [req])

/-- `LoginWithBearerToken` from `api/login.go`: it first calls `UserData`
(with the session's current bearer) and only on success stores the supplied
token via `SetBearerToken`.  Returns the result, the issued requests, and
the session after the call. -/
def LoginWithBearerToken (st : Session) (env : UDEnv) (token : List Nat) :
    (Except String User × List Request) × Session :=
  match UserData st env with
  | (.error e, reqs) => ((.error e, reqs), st)
  | (.ok u, reqs) => ((.ok u, reqs), { st with bearer := token })

/-- Decimal value of a digit run. -/
def decDigitsVal : List Nat → Nat → Nat
  | [], acc => acc
  | d :: rest, acc => decDigitsVal rest (acc * 10 + (d - 48))

/-- `fmt.Sscanf(s, "%d", &n)`: skip leading spaces, optional sign, then at
least one decimal digit (further bytes are ignored). -/
def sscanfInt (s : List Nat) : Option Int :=
  let isDigit : Nat → Bool := fun b => 48 ≤ b && b ≤ 57
  let core : List Nat → Option Nat := fun t =>
    let digits := t.takeWhile isDigit
    if digits.isEmpty then none else some (decDigitsVal digits 0)
  match s.dropWhile isSpaceByte with
  | 45 :: rest => (fun n => -(n : Int)) <$> core rest
  | 43 :: rest => (fun n => (n : Int)) <$> core rest
  | t => (fun n => (n : Int)) <$> core t

/-- Environment of `GetPlainSize`: the `/download-multi` answer, the HEAD
answer (status and `Content-Length` header, empty = absent), and the ranged
GET answer (`Range: bytes=0-31`). -/
structure PSEnv where
  dl : DLEnv
  headTransportErr : Bool
  headStatus : Nat
  headContentLength : List Nat
  rangeTransportErr : Bool
  rangeStatus : Nat
  rangeBody : List Nat

/-- `GetPlainSize` from `api/download.go`: reject a blank bearer, resolve
the download URL, HEAD it for the total cipher size, and — for a crypto
item — fetch bytes 0..31 with a ranged GET, CBC-decrypt them under the
fixed IV, read `numPadding` from byte 16 and return
`total − 32 − numPadding` (error when negative). -/
def GetPlainSize (c : BlockCipher) (st : Session) (env : PSEnv) (item : Item)
    (crypted : Bool) : Except String Int × List Request :=
  if trimSpace st.bearer = [] then
    (.error "missing bearer token; call Login first", [])
  else
    match GetDownloadURLs st env.dl [item.uid] crypted with
    | (.error e, reqs) => (.error e, reqs)
    | (.ok urls, reqs) =>
      let dl := urls.headD ⟨[], 0, []⟩
      let headReq : Request := ⟨asciiBytes "HEAD", dl.url, st.bearer⟩
      let reqs1 := reqs ++ [headReq]
      if env.headTransportErr then (.error "transport error", reqs1)
      else if env.headStatus < 200 ∨ 300 ≤ env.headStatus then
        (.error "HEAD failed", reqs1)
      else if env.headContentLength.isEmpty then
        (.error "missing Content-Length", reqs1)
      else
        match sscanfInt env.headContentLength with
        | none => (.error "cannot parse Content-Length", reqs1)
        | some total =>
          if !crypted then (.ok total, reqs1)
          else
            let rangeReq : Request := ⟨asciiBytes "GET", dl.url, st.bearer⟩
            let reqs2 := reqs1 ++ [rangeReq]
            if env.rangeTransportErr then (.error "transport error", reqs2)
            else if env.rangeStatus ≠ 206 ∧ env.rangeStatus ≠ 200 then
              (.error "range GET failed", reqs2)
            else if env.rangeBody.length < 32 then (.error "short header", reqs2)
            else
              match hexDecode st.cryptoKeyHex with
              | none => (.error "invalid key hex", reqs2)
              | some key =>
                if key.length ≠ 16 ∧ key.length ≠ 24 ∧ key.length ≠ 32 then
                  (.error "invalid key size", reqs2)
                else
                  let headerPlain := cbcDecrypt c fixedIV (env.rangeBody.take 32)
                  let numPadding : Int := headerPlain.getD 16 0
                  let plain := total - 32 - numPadding
                  if plain < 0 then (.error "calculated negative size", reqs2)
                  else (.ok plain, reqs2)

/-- The facade's state (`client/client.go`): the logged-in user and the
session state shared by the pooled senders. -/
structure ClientState where
  user : Option User
  session : Session

/-- `ListFolderTrash` from `client/client.go`: gate on a logged-in user,
then call `GetCollection` with the trash collection type. -/
def ListFolderTrash (c : BlockCipher) (cs : ClientState) (env : CollEnv)
    (folderID : Nat) : Except String (List Item) × List Request :=
  if cs.user.isNone then (.error "login first", [])
  else
    match GetCollection c cs.session env folderID (asciiBytes "trash") with
    | (.error e, reqs) => (.error e, reqs)
    | (.ok resp, reqs) => (.ok resp.data, reqs)

/-! ### Concrete block-cipher instance used to evaluate witnesses -/

/-- The identity permutation satisfies the block-cipher contract; witnesses
use it to evaluate the CBC-level definitions on concrete inputs. -/
def idCipher : BlockCipher where
  enc := fun b => b
  dec := fun b => b
  enc_len := fun _ h => h
  dec_len := fun _ h => h
  enc_bytes := fun _ _ h => h
  dec_bytes := fun _ _ h => h
  dec_enc := fun _ _ _ => rfl

/-- Auth failure as `withRetryOnAuthError` detects it: no transport error
and either a wire-level 401/403 or a parsed `error:true, code:1001` body. -/
def isAuthFailure (r : OpResult) : Prop :=
  r.transportErr = false ∧
    (r.status = 401 ∨ r.status = 403 ∨ (r.hasBody = true ∧ r.authErrBody = true))

instance (r : OpResult) : Decidable (isAuthFailure r) := by
  unfold isAuthFailure; infer_instance

/-- C4: on an auth failure (401/403 status or `{error:true, code:1001}`
body) with a registered re-login that succeeds, the original request is
re-executed exactly once (two executions, the retry's result returned); with
a failing or absent re-login, and on any non-auth-failure result, the
original result is returned after exactly one execution. -/
theorem withRetryOnAuthError_spec (op : Nat → OpResult) (relogin : Option Bool) :
    (isAuthFailure (op 0) → relogin = some true →
      withRetryOnAuthError op relogin = (op 1, 2, 1)) ∧
    (relogin = none ∨ relogin = some false →
      (withRetryOnAuthError op relogin).1 = op 0 ∧
      (withRetryOnAuthError op relogin).2.1 = 1) ∧
    (¬ isAuthFailure (op 0) →
      withRetryOnAuthError op relogin = (op 0, 1, 0)) := by
  rcases hop : op 0 with ⟨s, hb, ab, te⟩
  refine ⟨?_, ?_, ?_⟩
  · intro hf hr
    subst hr
    unfold isAuthFailure at hf
    obtain ⟨hte, hcase⟩ := hf
    simp only at hte hcase
    subst hte
    rcases hcase with rfl | rfl | ⟨h1, h2⟩
    · simp [withRetryOnAuthError, hop]
    · simp [withRetryOnAuthError, hop]
    · subst h1; subst h2
      by_cases h4 : s = 401
      · simp [withRetryOnAuthError, hop, h4]
      · by_cases h3 : s = 403 <;>
          simp [withRetryOnAuthError, retrySecondPhase, hop, h4, h3]
  · rintro (rfl | rfl) <;>
      cases te <;> cases hb <;> cases ab <;>
      by_cases h4 : s = 401 <;> by_cases h3 : s = 403 <;>
      simp [withRetryOnAuthError, retrySecondPhase, hop, h4, h3]
  · intro hno
    unfold isAuthFailure at hno
    push_neg at hno
    simp only at hno
    cases te
    · obtain ⟨h4, h3, hcd⟩ := hno rfl
      cases hb
      · simp [withRetryOnAuthError, retrySecondPhase, hop, h4, h3]
      · have hab : ab = false := by
          cases ab
          · rfl
          · exact absurd rfl (hcd rfl)
        subst hab
        simp [withRetryOnAuthError, retrySecondPhase, hop, h4, h3]
    · simp [withRetryOnAuthError, retrySecondPhase, hop]

/-- C4 witness: a first execution returning 401 with a succeeding re-login
is retried exactly once and the second result is returned. -/
theorem withRetryOnAuthError_spec_witness :
    withRetryOnAuthError
      (fun i => if i = 0 then ⟨401, false, false, false⟩ else ⟨200, true, false, false⟩)
      (some true) =
      (⟨200, true, false, false⟩, 2, 1) :=
  (withRetryOnAuthError_spec
      (fun i => if i = 0 then ⟨401, false, false, false⟩ else ⟨200, true, false, false⟩)
      (some true)).1 (by decide) rfl

/-- `GetCollection` with type `trash` errors without issuing a request
whenever the bearer check passes. -/
theorem GetCollection_trash_aux (c : BlockCipher) (st : Session)
    (env : CollEnv) (fid : Nat) (hb : trimSpace st.bearer ≠ []) :
    GetCollection c st env fid (asciiBytes "trash") =
      (.error "invalid collection type", []) := by
  have hne : (asciiBytes "trash" ≠ asciiBytes "cloud" ∧
      asciiBytes "trash" ≠ asciiBytes "crypto") := by decide
  unfold GetCollection
  rw [if_neg hb, if_pos hne]

/-- C10: `GetCollection` rejects every collection type other than `cloud`
and `crypto` without issuing any request (given the bearer check passes),
and the facade's `ListFolderTrash`, which passes the `trash` type, always
returns that error for an authenticated client, performing no network
I/O. -/
theorem GetCollection_invalid_type_no_network :
    (∀ (c : BlockCipher) (st : Session) (env : CollEnv) (fid : Nat) (ty : List Nat),
      trimSpace st.bearer ≠ [] → ty ≠ asciiBytes "cloud" → ty ≠ asciiBytes "crypto" →
      GetCollection c st env fid ty = (.error "invalid collection type", [])) ∧
    (∀ (c : BlockCipher) (cs : ClientState) (env : CollEnv) (fid : Nat),
      cs.user.isSome → trimSpace cs.session.bearer ≠ [] →
      ListFolderTrash c cs env fid = (.error "invalid collection type", [])) := by
  constructor
  · intro c st env fid ty hb hcl hcr
    unfold GetCollection
    simp [hb, hcl, hcr]
  · intro c cs env fid hu hb
    unfold ListFolderTrash
    rw [Option.isSome_iff_exists] at hu
    obtain ⟨u, hu⟩ := hu
    simp only [hu, Option.isNone_some, Bool.false_eq_true, if_false]
    have h := GetCollection_trash_aux c cs.session env fid hb
    simp [h]

/-- C10 witness: an authenticated client listing the trash collection. -/
theorem GetCollection_invalid_type_no_network_witness :
    GetCollection idCipher ⟨asciiBytes "T", []⟩ ⟨false, 200, none⟩ 0
        (asciiBytes "trash") = (.error "invalid collection type", []) ∧
    ListFolderTrash idCipher ⟨some ⟨1, []⟩, ⟨asciiBytes "T", []⟩⟩ ⟨false, 200, none⟩ 0 =
      (.error "invalid collection type", []) :=
  ⟨GetCollection_invalid_type_no_network.1 idCipher ⟨asciiBytes "T", []⟩
      ⟨false, 200, none⟩ 0 (asciiBytes "trash") (by decide) (by decide) (by decide),
   GetCollection_invalid_type_no_network.2 idCipher
      ⟨some ⟨1, []⟩, ⟨asciiBytes "T", []⟩⟩ ⟨false, 200, none⟩ 0 (by decide) (by decide)⟩

/-- Every request `UserData` issues carries the session's current bearer. -/
theorem UserData_requests (st : Session) (env : UDEnv) :
    ∀ r ∈ (UserData st env).2, r.bearer = st.bearer := by
  intro r hr
  rcases env with ⟨te, sts, pr⟩
  unfold UserData at hr
  by_cases hbe : trimSpace st.bearer = []
  · rw [if_pos hbe] at hr
    simp at hr
  · rw [if_neg hbe] at hr
    cases te <;> rcases pr with _ | u <;>
      by_cases hs : 400 ≤ sts <;>
      simp [hs] at hr <;> simp [hr]

/-- C9: `LoginWithBearerToken` calls `UserData` before storing the supplied
token.  Consequently (a) on a session whose bearer is empty the call fails
without any network I/O and without storing the token, and (b) every request
it issues carries the session's previous bearer, never the new token. -/
theorem LoginWithBearerToken_user_data_before_store :
    (∀ (env : UDEnv) (token : List Nat),
      LoginWithBearerToken ⟨[], []⟩ env token =
        ((.error "missing bearer token; call Login first", []), ⟨[], []⟩)) ∧
    (∀ (st : Session) (env : UDEnv) (token : List Nat),
      ∀ r ∈ (LoginWithBearerToken st env token).1.2, r.bearer = st.bearer) := by
  constructor
  · intro env token
    rfl
  · intro st env token r hr
    have hmem : r ∈ (UserData st env).2 := by
      unfold LoginWithBearerToken at hr
      rcases h : UserData st env with ⟨res, reqs⟩
      rw [h] at hr
      rcases res with e | u <;> simpa using hr
    exact UserData_requests st env r hmem

/-- C9 witness: a fresh session with a supplied token fails without issuing
a request or storing the token; an authenticated session's `/user-data`
request carries the old bearer. -/
theorem LoginWithBearerToken_user_data_before_store_witness :
    LoginWithBearerToken ⟨[], []⟩ ⟨false, 200, none⟩ (asciiBytes "T") =
      ((.error "missing bearer token; call Login first", []), ⟨[], []⟩) ∧
    (⟨asciiBytes "GET", asciiBytes "https://apis.icedrive.net/v3/webapp/user-data",
        asciiBytes "OLD"⟩ : Request).bearer = asciiBytes "OLD" :=
  ⟨LoginWithBearerToken_user_data_before_store.1 ⟨false, 200, none⟩ (asciiBytes "T"),
   LoginWithBearerToken_user_data_before_store.2 ⟨asciiBytes "OLD", []⟩
      ⟨false, 200, some ⟨1, []⟩⟩ (asciiBytes "T") _ (by decide)⟩

/-- C6 counterexample: `UploadFile` on a session whose bearer token is the
empty string still performs network I/O — it issues the
`/geo-fileserver-list` GET (with no Authorization) before any failure. -/
theorem UploadFile_requests_without_bearer :
    UploadFile ⟨[], []⟩ ⟨⟨true, 0, none⟩, .error "open error", false, 0, none⟩ 0
        (asciiBytes "f.txt") =
      (.error "no upload endpoints",
       [⟨asciiBytes "GET", asciiBytes "/geo-fileserver-list", []⟩]) := by
  rfl

/-- C6 (amended): the auth-requiring wrappers that do check the bearer —
`GetCollection`, `GetDownloadURLs`, `UserData`, `GetPlainSize` — fail on a
blank bearer before performing any network I/O (`UploadFile` is the
exception). -/
theorem auth_gate_before_network (st : Session) (hb : trimSpace st.bearer = []) :
    (∀ (c : BlockCipher) (env : CollEnv) (fid : Nat) (ty : List Nat),
      GetCollection c st env fid ty =
        (.error "missing bearer token; call Login first", [])) ∧
    (∀ (env : DLEnv) (uids : List (List Nat)) (cr : Bool),
      GetDownloadURLs st env uids cr =
        (.error "missing bearer token; call Login first", [])) ∧
    (∀ env : UDEnv,
      UserData st env = (.error "missing bearer token; call Login first", [])) ∧
    (∀ (c : BlockCipher) (env : PSEnv) (it : Item) (cr : Bool),
      GetPlainSize c st env it cr =
        (.error "missing bearer token; call Login first", [])) := by
  refine ⟨?_, ?_, ?_, ?_⟩ <;> intros <;>
    simp [GetCollection, GetDownloadURLs, UserData, GetPlainSize, hb]

/-- C6 witness: the blank-bearer gate evaluated on a concrete session. -/
theorem auth_gate_before_network_witness :
    trimSpace ([] : List Nat) = [] ∧
    GetCollection idCipher ⟨[], []⟩ ⟨false, 200, none⟩ 0 (asciiBytes "cloud") =
      (.error "missing bearer token; call Login first", []) :=
  ⟨by decide,
   (auth_gate_before_network ⟨[], []⟩ (by decide)).1 idCipher ⟨false, 200, none⟩ 0
      (asciiBytes "cloud")⟩

/-- `GetDownloadURLs` on a good environment returns the URL list after one
POST to `/download-multi`. -/
theorem GetDownloadURLs_ok (st : Session) (env : DLEnv)
    (uids : List (List Nat)) (cr : Bool) (urls : List DownloadURLEntry)
    (hb : trimSpace st.bearer ≠ []) (hte : env.transportErr = false)
    (hst : env.status < 400) (hp : env.parse = some (false, urls))
    (hne : urls.isEmpty = false) :
    GetDownloadURLs st env uids cr =
      (.ok urls, [⟨asciiBytes "POST", asciiBytes "/download-multi", st.bearer⟩]) := by
  unfold GetDownloadURLs
  have hst' : ¬ 400 ≤ env.status := by omega
  simp [hb, hte, hst', hp, hne]

/-- C7: for a crypto item, `GetPlainSize` HEADs the download URL for the
total cipher size, fetches the 32-byte encrypted header with
`Range: bytes=0-31`, CBC-decrypts it under the fixed IV, and returns
`total − 32 − numPadding` where `numPadding` is decrypted header byte 16. -/
theorem GetPlainSize_spec (c : BlockCipher) (st : Session) (env : PSEnv)
    (item : Item) (urls : List DownloadURLEntry) (total : Int)
    (hb : trimSpace st.bearer ≠ [])
    (hdt : env.dl.transportErr = false) (hds : env.dl.status < 400)
    (hdp : env.dl.parse = some (false, urls)) (hdn : urls.isEmpty = false)
    (hht : env.headTransportErr = false)
    (hh1 : 200 ≤ env.headStatus) (hh2 : env.headStatus < 300)
    (hcl : env.headContentLength.isEmpty = false)
    (htot : sscanfInt env.headContentLength = some total)
    (hrt : env.rangeTransportErr = false)
    (hrs : env.rangeStatus = 206 ∨ env.rangeStatus = 200)
    (hrb : 32 ≤ env.rangeBody.length)
    (hkey : ∃ key, hexDecode st.cryptoKeyHex = some key ∧ key.length = 32)
    (hpos : 0 ≤ total - 32 -
      ((cbcDecrypt c fixedIV (env.rangeBody.take 32)).getD 16 0 : Int)) :
    (GetPlainSize c st env item true).1 =
      .ok (total - 32 -
        ((cbcDecrypt c fixedIV (env.rangeBody.take 32)).getD 16 0 : Int)) := by
  obtain ⟨key, hkd, hkl⟩ := hkey
  unfold GetPlainSize
  rw [if_neg hb, GetDownloadURLs_ok st env.dl [item.uid] true urls hb hdt hds hdp hdn]
  have hhs : ¬ (env.headStatus < 200 ∨ 300 ≤ env.headStatus) := by omega
  have hrs' : ¬ (env.rangeStatus ≠ 206 ∧ env.rangeStatus ≠ 200) := by
    rcases hrs with h | h <;> simp [h]
  have hrb' : ¬ env.rangeBody.length < 32 := by omega
  have hkl' : ¬ (key.length ≠ 16 ∧ key.length ≠ 24 ∧ key.length ≠ 32) := by
    simp [hkl]
  have hpos' : ¬ (total - 32 -
      ((cbcDecrypt c fixedIV (env.rangeBody.take 32)).getD 16 0 : Int) < 0) := by
    omega
  simp [hht, hhs, hcl, htot, hrt, hrs', hrb', hkd, hkl']
  rw [List.getD_eq_getElem?_getD] at hpos'
  rw [if_neg (by omega)]

/-- Concrete environment for the `GetPlainSize` scenario: total cipher size
2080, ranged header whose decryption under the fixed IV has byte 16 = 7. -/
def psEnvW : PSEnv :=
  ⟨⟨false, 200, some (false, [⟨asciiBytes "x", 2080, asciiBytes "u"⟩])⟩,
   false, 200, asciiBytes "2080",
   false, 206, fixedIV ++ 54 :: List.replicate 15 0⟩

/-- C7 witness: the concrete scenario — cipher size 2080, decrypted header
byte 16 equal to 7 — yields 2080 − 32 − 7 = 2041. -/
theorem GetPlainSize_spec_witness :
    (GetPlainSize idCipher ⟨asciiBytes "T", List.replicate 64 48⟩ psEnvW
      ⟨asciiBytes "file-1", asciiBytes "x"⟩ true).1 = .ok 2041 := by
  have h7 : ((cbcDecrypt idCipher fixedIV (psEnvW.rangeBody.take 32)).getD 16 0 : Int) = 7 := by
    have htake : psEnvW.rangeBody.take 32 = fixedIV ++ 54 :: List.replicate 15 0 := by
      decide
    rw [htake,
      cbcDecrypt_block idCipher fixedIV fixedIV (54 :: List.replicate 15 0) (by decide),
      cbcDecrypt_single idCipher fixedIV (54 :: List.replicate 15 0) (by decide)]
    decide
  have h := GetPlainSize_spec idCipher ⟨asciiBytes "T", List.replicate 64 48⟩ psEnvW
    ⟨asciiBytes "file-1", asciiBytes "x"⟩
    [⟨asciiBytes "x", 2080, asciiBytes "u"⟩] 2080
    (by decide) (by decide) (by decide) (by decide) (by decide) (by decide)
    (by decide) (by decide) (by decide) (by decide) (by decide)
    (by decide) (by decide) ⟨List.replicate 32 0, by decide, by decide⟩
    (by rw [h7]; norm_num)
  rw [h, h7]
  norm_num

/-! ### C5: the current proof-of-work solver -/

/-- A counter returned by `powLoop` satisfies the difficulty target, is at
least the starting counter, and stays below 2^32 when the start does. -/
theorem powLoop_found (sha : List Nat → List Nat) (bits : Int) (base : List Nat) :
    ∀ fuel start counter, powLoop sha bits base start fuel = some counter →
      (countLeadingZeroBits (sha (base ++ be32 counter)) : Int) ≥ bits ∧
      start ≤ counter ∧ (start < 2 ^ 32 → counter < 2 ^ 32) := by
  intro fuel
  induction fuel with
  | zero => intro start counter h; exact absurd h (by simp [powLoop])
  | succ fuel ih =>
    intro start counter h
    rw [powLoop] at h
    by_cases hok : (countLeadingZeroBits (sha (base ++ be32 start)) : Int) ≥ bits
    · rw [if_pos hok] at h
      obtain rfl : start = counter := by simpa using h
      exact ⟨hok, le_refl _, fun hs => hs⟩
    · rw [if_neg hok] at h
      by_cases hw : start + 1 = 2 ^ 32
      · rw [if_pos hw] at h; exact absurd h (by simp)
      · rw [if_neg hw] at h
        obtain ⟨h1, h2, h3⟩ := ih (start + 1) counter h
        exact ⟨h1, by omega, fun hs => h3 (by omega)⟩

/-- Counters below the one `powLoop` returns fail the difficulty target. -/
theorem powLoop_min (sha : List Nat → List Nat) (bits : Int) (base : List Nat) :
    ∀ fuel start counter,
      (∀ j < start, ¬ (countLeadingZeroBits (sha (base ++ be32 j)) : Int) ≥ bits) →
      powLoop sha bits base start fuel = some counter →
      ∀ j < counter, ¬ (countLeadingZeroBits (sha (base ++ be32 j)) : Int) ≥ bits := by
  intro fuel
  induction fuel with
  | zero => intro start counter _ h; exact absurd h (by simp [powLoop])
  | succ fuel ih =>
    intro start counter hpre h
    rw [powLoop] at h
    by_cases hok : (countLeadingZeroBits (sha (base ++ be32 start)) : Int) ≥ bits
    · rw [if_pos hok] at h
      obtain rfl : start = counter := by simpa using h
      exact hpre
    · rw [if_neg hok] at h
      by_cases hw : start + 1 = 2 ^ 32
      · rw [if_pos hw] at h; exact absurd h (by simp)
      · rw [if_neg hw] at h
        refine ih (start + 1) counter ?_ h
        intro j hj
        rcases Nat.lt_succ_iff_lt_or_eq.mp hj with hj' | rfl
        · exact hpre j hj'
        · exact hok

/-- When every `uint32` counter fails the target, `powLoop` exhausts the
counter space and reports the overflow. -/
theorem powLoop_none (sha : List Nat → List Nat) (bits : Int) (base : List Nat) :
    ∀ fuel start,
      (∀ j, start ≤ j → j < 2 ^ 32 →
        ¬ (countLeadingZeroBits (sha (base ++ be32 j)) : Int) ≥ bits) →
      start < 2 ^ 32 →
      powLoop sha bits base start fuel = none := by
  intro fuel
  induction fuel with
  | zero => intro start _ _; rfl
  | succ fuel ih =>
    intro start hall hlt
    rw [powLoop, if_neg (hall start (le_refl _) hlt)]
    by_cases hw : start + 1 = 2 ^ 32
    · rw [if_pos hw]
    · rw [if_neg hw]
      exact ih (start + 1) (fun j h1 h2 => hall j (by omega) h2) (by omega)

/-- C5: `SolvePOWChallenge` fails with the invalid-difficulty error exactly
when `difficultyBits` lies outside 1..256; a successful solve returns
`nonce = base64url(R ‖ counter)` (counter big-endian) and the hex hash,
where the counter is the smallest `uint32` (starting at 0) making
`leadingZeroBits(sha256(challenge ‖ R ‖ counter))` reach the difficulty;
and when every `uint32` counter fails, it reports the counter overflow. -/
theorem SolvePOWChallenge_spec (sha : List Nat → List Nat) (rand12 : List Nat)
    (ch : POWChallenge) :
    ((ch.difficultyBits ≤ 0 ∨ 256 < ch.difficultyBits) ↔
      SolvePOWChallenge sha rand12 ch = .error .invalidDifficulty) ∧
    (∀ nonceB64 hashHex,
      SolvePOWChallenge sha rand12 ch = .ok (nonceB64, hashHex) →
      ∃ cb counter, base64urlDecode ch.challenge = some cb ∧ counter < 2 ^ 32 ∧
        nonceB64 = base64urlEncode (rand12 ++ be32 counter) ∧
        hashHex = hexEncode (sha ((cb ++ rand12) ++ be32 counter)) ∧
        (countLeadingZeroBits (sha ((cb ++ rand12) ++ be32 counter)) : Int) ≥
          ch.difficultyBits ∧
        ∀ j < counter,
          (countLeadingZeroBits (sha ((cb ++ rand12) ++ be32 j)) : Int) <
            ch.difficultyBits) ∧
    (∀ cb, base64urlDecode ch.challenge = some cb →
      ¬ (ch.difficultyBits ≤ 0 ∨ 256 < ch.difficultyBits) →
      (∀ j < 2 ^ 32,
        (countLeadingZeroBits (sha ((cb ++ rand12) ++ be32 j)) : Int) <
          ch.difficultyBits) →
      SolvePOWChallenge sha rand12 ch = .error .counterOverflow) := by
  refine ⟨⟨?_, ?_⟩, ?_, ?_⟩
  · intro h
    unfold SolvePOWChallenge
    rw [if_pos h]
  · intro h
    by_cases hv : ch.difficultyBits ≤ 0 ∨ 256 < ch.difficultyBits
    · exact hv
    · exfalso
      unfold SolvePOWChallenge at h
      rw [if_neg hv] at h
      rcases hdec : base64urlDecode ch.challenge with _ | cb <;> rw [hdec] at h
      · simp at h
      · dsimp only at h
        rcases hloop : powLoop sha ch.difficultyBits (cb ++ rand12) 0 (2 ^ 32)
          with _ | k <;> rw [hloop] at h <;> simp at h
  · intro nonceB64 hashHex h
    by_cases hv : ch.difficultyBits ≤ 0 ∨ 256 < ch.difficultyBits
    · unfold SolvePOWChallenge at h
      rw [if_pos hv] at h
      exact absurd h (by simp)
    · unfold SolvePOWChallenge at h
      rw [if_neg hv] at h
      rcases hdec : base64urlDecode ch.challenge with _ | cb <;> rw [hdec] at h
      · exact absurd h (by simp)
      · dsimp only at h
        rcases hloop : powLoop sha ch.difficultyBits (cb ++ rand12) 0 (2 ^ 32)
          with _ | k <;> rw [hloop] at h
        · exact absurd h (by simp)
        · obtain ⟨hn, hh⟩ : nonceB64 = base64urlEncode (rand12 ++ be32 k) ∧
              hashHex = hexEncode (sha ((cb ++ rand12) ++ be32 k)) := by
            constructor <;> simp_all
          obtain ⟨h1, _, h3⟩ := powLoop_found sha ch.difficultyBits (cb ++ rand12)
            (2 ^ 32) 0 k hloop
          refine ⟨cb, k, rfl, h3 (by norm_num), hn, hh, h1, ?_⟩
          intro j hj
          have := powLoop_min sha ch.difficultyBits (cb ++ rand12) (2 ^ 32) 0 k
            (by omega) hloop j hj
          omega
  · intro cb hdec hv hall
    unfold SolvePOWChallenge
    rw [if_neg hv, hdec]
    dsimp only
    rw [powLoop_none sha ch.difficultyBits (cb ++ rand12) (2 ^ 32) 0
      (fun j _ h2 => by have := hall j h2; omega) (by norm_num)]

/-- C5 witness: a challenge with `difficultyBits = 8`, challenge `"AAAA"`,
and a hash function whose digest is all-zero, solved at counter 0. -/
theorem SolvePOWChallenge_spec_witness :
    ∃ cb counter, base64urlDecode (asciiBytes "AAAA") = some cb ∧
      counter < 2 ^ 32 ∧
      base64urlEncode (List.replicate 12 0 ++ be32 0) =
        base64urlEncode (List.replicate 12 0 ++ be32 counter) ∧
      hexEncode (List.replicate 32 0) =
        hexEncode ((fun _ => List.replicate 32 0)
          ((cb ++ List.replicate 12 0) ++ be32 counter)) ∧
      (countLeadingZeroBits ((fun _ => List.replicate 32 0)
          ((cb ++ List.replicate 12 0) ++ be32 counter)) : Int) ≥ (8 : Int) ∧
      ∀ j < counter,
        (countLeadingZeroBits ((fun _ => List.replicate 32 0)
            ((cb ++ List.replicate 12 0) ++ be32 j)) : Int) < (8 : Int) :=
  (SolvePOWChallenge_spec (fun _ => List.replicate 32 0) (List.replicate 12 0)
      ⟨asciiBytes "AAAA", 8, 0, [], []⟩).2.1
    (base64urlEncode (List.replicate 12 0 ++ be32 0))
    (hexEncode (List.replicate 32 0)) (by decide)

/-! ### C8: the legacy proof-of-work -/

/-- A pair returned by `legacyLoop` is a nonce with its hash, and the hash
hex starts with four `'0'` characters. -/
theorem legacyLoop_found (sha : List Nat → List Nat) :
    ∀ fuel start n h, legacyLoop sha start fuel = some (n, h) →
      h = hexEncode (sha (asciiBytes "proof-of-work" ++ natToDecimal n)) ∧
      (List.replicate 4 48).isPrefixOf h := by
  intro fuel
  induction fuel with
  | zero => intro start n h hl; exact absurd hl (by simp [legacyLoop])
  | succ fuel ih =>
    intro start n h hl
    rw [legacyLoop] at hl
    by_cases hp : (List.replicate 4 48).isPrefixOf
        (hexEncode (sha (asciiBytes "proof-of-work" ++ natToDecimal start)))
    · rw [if_pos hp] at hl
      obtain ⟨rfl, rfl⟩ : start = n ∧
          hexEncode (sha (asciiBytes "proof-of-work" ++ natToDecimal start)) = h := by
        simpa using hl
      exact ⟨rfl, hp⟩
    · rw [if_neg hp] at hl
      exact ih ((start + 1) % 2 ^ 64) n h hl

/-- Nonces below the one `legacyLoop` returns fail the 4-zero prefix test. -/
theorem legacyLoop_min (sha : List Nat → List Nat) :
    ∀ fuel start, start < 2 ^ 64 →
      (∀ m < start, ¬ (List.replicate 4 48).isPrefixOf
        (hexEncode (sha (asciiBytes "proof-of-work" ++ natToDecimal m)))) →
      ∀ n h, legacyLoop sha start fuel = some (n, h) →
      ∀ m < n, ¬ (List.replicate 4 48).isPrefixOf
        (hexEncode (sha (asciiBytes "proof-of-work" ++ natToDecimal m))) := by
  intro fuel
  induction fuel with
  | zero => intro start _ _ n h hl; exact absurd hl (by simp [legacyLoop])
  | succ fuel ih =>
    intro start hs hpre n h hl
    rw [legacyLoop] at hl
    by_cases hp : (List.replicate 4 48).isPrefixOf
        (hexEncode (sha (asciiBytes "proof-of-work" ++ natToDecimal start)))
    · rw [if_pos hp] at hl
      obtain ⟨rfl, -⟩ : start = n ∧
          hexEncode (sha (asciiBytes "proof-of-work" ++ natToDecimal start)) = h := by
        simpa using hl
      exact hpre
    · rw [if_neg hp] at hl
      by_cases hw : start + 1 < 2 ^ 64
      · rw [Nat.mod_eq_of_lt hw] at hl
        refine ih (start + 1) hw ?_ n h hl
        intro m hm
        rcases Nat.lt_succ_iff_lt_or_eq.mp hm with hm' | rfl
        · exact hpre m hm'
        · exact hp
      · have hw' : start + 1 = 2 ^ 64 := by omega
        rw [hw'] at hl
        simp only [Nat.mod_self] at hl
        exact ih 0 (by norm_num) (by omega) n h hl

set_option maxRecDepth 4096 in
/-- Evaluation of `stableStringifyPayload`: the five map keys sort to
`challenge, difficulty, expires, hash, nonce` (ascending byte order) and the
object is rendered in that key order. -/
theorem stableStringify_eval (p : Payload) :
    stableStringifyPayload p =
      123 :: joinComma
        [jsonQuote (asciiBytes "challenge") ++ 58 :: jsonQuote p.challenge,
         jsonQuote (asciiBytes "difficulty") ++ 58 :: intToDecimal p.difficulty,
         jsonQuote (asciiBytes "expires") ++ 58 :: natToDecimal p.expires,
         jsonQuote (asciiBytes "hash") ++ 58 :: jsonQuote p.hash,
         jsonQuote (asciiBytes "nonce") ++ 58 :: natToDecimal p.nonce] ++ [125] := by
  rfl

/-- C8: when the nonce search succeeds, `ComputeProofOfWork` emits the
base64 of the `{payload, signature}` JSON where the payload carries
`difficulty = 4`, `expires = serverTimeSec·1000 + 60000` (as `uint64`), the
smallest nonce whose `sha256Hex("proof-of-work" ‖ decimal(nonce))` starts
with `"0000"`, and that hash; the signature is HMAC-SHA256 of the stable
serialization, whose keys appear in ascending lexicographic order
(`challenge, difficulty, expires, hash, nonce`). -/
theorem ComputeProofOfWork_spec (sha : List Nat → List Nat)
    (hmac : List Nat → List Nat → List Nat) (fuel t : Nat)
    (keyHex key : List Nat) (hkey : hexDecode keyHex = some key) :
    ∀ n h, legacyLoop sha 0 fuel = some (n, h) →
      ComputeProofOfWork sha hmac fuel t keyHex =
        .ok (base64stdEncode (finalJson
          ⟨asciiBytes "proof-of-work", n, h, 4, (t * 1000 % 2 ^ 64 + 60000) % 2 ^ 64⟩
          (hexEncode (hmac (stableStringifyPayload
            ⟨asciiBytes "proof-of-work", n, h, 4,
             (t * 1000 % 2 ^ 64 + 60000) % 2 ^ 64⟩) key)))) ∧
      h = hexEncode (sha (asciiBytes "proof-of-work" ++ natToDecimal n)) ∧
      (List.replicate 4 48).isPrefixOf h ∧
      (∀ m < n, ¬ (List.replicate 4 48).isPrefixOf
        (hexEncode (sha (asciiBytes "proof-of-work" ++ natToDecimal m)))) ∧
      stableStringifyPayload
          ⟨asciiBytes "proof-of-work", n, h, 4, (t * 1000 % 2 ^ 64 + 60000) % 2 ^ 64⟩ =
        123 :: joinComma
          [jsonQuote (asciiBytes "challenge") ++
             58 :: jsonQuote (asciiBytes "proof-of-work"),
           jsonQuote (asciiBytes "difficulty") ++ 58 :: intToDecimal 4,
           jsonQuote (asciiBytes "expires") ++
             58 :: natToDecimal ((t * 1000 % 2 ^ 64 + 60000) % 2 ^ 64),
           jsonQuote (asciiBytes "hash") ++ 58 :: jsonQuote h,
           jsonQuote (asciiBytes "nonce") ++ 58 :: natToDecimal n] ++ [125] := by
  intro n h hl
  obtain ⟨hh, hp⟩ := legacyLoop_found sha fuel 0 n h hl
  refine ⟨?_, hh, hp,
    legacyLoop_min sha fuel 0 (by norm_num)
      (fun m hm => absurd hm (Nat.not_lt_zero m)) n h hl, ?_⟩
  · unfold ComputeProofOfWork
    rw [hl]
    dsimp only
    rw [hkey]
  · exact stableStringify_eval
      ⟨asciiBytes "proof-of-work", n, h, 4, (t * 1000 % 2 ^ 64 + 60000) % 2 ^ 64⟩

/-- C8 witness: with an all-zero digest function, nonce 0 solves at once;
for `serverTimeSec = 1_700_000_000` the payload expiry is
`1_700_000_060_000` and the hash starts with `"0000"`. -/
theorem ComputeProofOfWork_spec_witness :
    ComputeProofOfWork (fun _ => List.replicate 32 0) (fun _ _ => []) 1
        1700000000 (List.replicate 64 48) =
      .ok (base64stdEncode (finalJson
        ⟨asciiBytes "proof-of-work", 0, hexEncode (List.replicate 32 0), 4,
         (1700000000 * 1000 % 2 ^ 64 + 60000) % 2 ^ 64⟩
        (hexEncode ((fun _ _ => ([] : List Nat)) (stableStringifyPayload
          ⟨asciiBytes "proof-of-work", 0, hexEncode (List.replicate 32 0), 4,
           (1700000000 * 1000 % 2 ^ 64 + 60000) % 2 ^ 64⟩) (List.replicate 32 0))))) ∧
    (1700000000 * 1000 % 2 ^ 64 + 60000) % 2 ^ 64 = 1700000060000 ∧
    (List.replicate 4 48).isPrefixOf (hexEncode (List.replicate 32 0)) :=
  ⟨(ComputeProofOfWork_spec (fun _ => List.replicate 32 0) (fun _ _ => []) 1
      1700000000 (List.replicate 64 48) (List.replicate 32 0) (by decide) 0
      (hexEncode (List.replicate 32 0)) (by decide)).1,
   by decide,
   by decide⟩

/-! ### C2/C3: the filename codec -/

theorem xorBytes_length (a b : List Nat) :
    (xorBytes a b).length = min a.length b.length :=
  List.length_zipWith _ _ _

theorem xorBytes_bytesOk : ∀ (a b : List Nat), bytesOk a → bytesOk b →
    bytesOk (xorBytes a b)
  | [], _, _, _ => by intro x hx; simp [xorBytes] at hx
  | _ :: _, [], _, _ => by intro x hx; simp [xorBytes] at hx
  | a0 :: as, b0 :: bs, ha, hb => by
    intro x hx
    rw [xorBytes, List.zipWith_cons_cons, List.mem_cons] at hx
    rcases hx with rfl | hx
    · have ha0 : a0 < 256 := ha a0 (by simp)
      have hb0 : b0 < 256 := hb b0 (by simp)
      have h8 : a0 ^^^ b0 < 2 ^ 8 := Nat.xor_lt_two_pow (by omega) (by omega)
      show a0 ^^^ b0 < 256
      omega
    · exact xorBytes_bytesOk as bs (fun y hy => ha y (by simp [hy]))
        (fun y hy => hb y (by simp [hy])) x hx

theorem xorBytes_cancel : ∀ (a b : List Nat), a.length = b.length →
    xorBytes (xorBytes a b) b = a
  | [], [], _ => rfl
  | a0 :: as, b0 :: bs, h => by
    simp only [xorBytes, List.zipWith_cons_cons, List.cons.injEq]
    refine ⟨Nat.xor_cancel_right b0 a0, ?_⟩
    exact xorBytes_cancel as bs (by simpa using h)

set_option maxRecDepth 4096 in
/-- Every byte `url.QueryEscape` emits is a nonzero byte value. -/
theorem escapeByte_facts : ∀ b : Fin 256, ∀ x ∈ escapeByte b.val, x < 256 ∧ x ≠ 0 := by
  decide

set_option maxRecDepth 4096 in
/-- Unreserved bytes are neither `%` nor `+`. -/
theorem unres_not_special : ∀ b : Fin 256, isUnreservedQueryByte b.val = true →
    b.val ≠ 37 ∧ b.val ≠ 43 := by
  decide

set_option maxRecDepth 4096 in
/-- The uppercase hex digits `escapeByte` emits decode back to the nibbles. -/
theorem escape_hex_facts : ∀ b : Fin 256,
    hexVal (if b.val / 16 < 10 then 48 + b.val / 16 else 55 + b.val / 16) =
      some (b.val / 16) ∧
    hexVal (if b.val % 16 < 10 then 48 + b.val % 16 else 55 + b.val % 16) =
      some (b.val % 16) := by
  decide

/-- `queryUnescape` passes any byte other than `%` and `+` through. -/
theorem queryUnescape_cons_other (c : Nat) (h37 : c ≠ 37) (h43 : c ≠ 43)
    (tl : List Nat) :
    queryUnescape (c :: tl) = (c :: ·) <$> queryUnescape tl := by
  cases tl with
  | nil => simp [queryUnescape, h37, h43]
  | cons a rest => cases rest <;> simp [queryUnescape, h37, h43]

/-- `queryUnescape` decodes `+` to a space. -/
theorem queryUnescape_cons_plus (tl : List Nat) :
    queryUnescape (43 :: tl) = (32 :: ·) <$> queryUnescape tl := by
  cases tl with
  | nil => simp [queryUnescape]
  | cons a rest => cases rest <;> simp [queryUnescape]

/-- `queryUnescape` on a `%` with two following characters. -/
theorem queryUnescape_percent (a b : Nat) (tl : List Nat) :
    queryUnescape (37 :: a :: b :: tl) =
      match hexVal a, hexVal b, queryUnescape tl with
      | some x, some y, some tl' => some ((16 * x + y) :: tl')
      | _, _, _ => none := by
  simp [queryUnescape]

/-- `queryUnescape` undoes one `escapeByte` step. -/
theorem queryUnescape_escapeByte (b : Nat) (hb : b < 256) (tl : List Nat) :
    queryUnescape (escapeByte b ++ tl) = (b :: ·) <$> queryUnescape tl := by
  by_cases hu : isUnreservedQueryByte b
  · obtain ⟨h37, h43⟩ := unres_not_special ⟨b, hb⟩ hu
    rw [show escapeByte b = [b] from by rw [escapeByte, if_pos hu]]
    simpa using queryUnescape_cons_other b h37 h43 tl
  · by_cases hsp : b = 32
    · subst hsp
      rw [show escapeByte 32 = [43] from rfl]
      simpa using queryUnescape_cons_plus tl
    · rw [show escapeByte b =
          [37, (if b / 16 < 10 then 48 + b / 16 else 55 + b / 16),
           (if b % 16 < 10 then 48 + b % 16 else 55 + b % 16)] from by
        rw [escapeByte, if_neg hu, if_neg hsp]]
      simp only [List.cons_append, List.nil_append]
      rw [queryUnescape_percent]
      obtain ⟨hhi, hlo⟩ := escape_hex_facts ⟨b, hb⟩
      rw [hhi, hlo]
      rcases h : queryUnescape tl with _ | s <;> simp [h, Nat.div_add_mod]

/-- The round trip of Go `url.QueryEscape` / `url.QueryUnescape` is the
identity on byte strings. -/
theorem queryUnescape_queryEscape (s : List Nat) (hs : bytesOk s) :
    queryUnescape (queryEscape s) = some s := by
  induction s with
  | nil => rfl
  | cons b rest ih =>
    have hb : b < 256 := hs b (by simp)
    have hrest : bytesOk rest := fun x hx => hs x (by simp [hx])
    simp only [queryEscape]
    rw [queryUnescape_escapeByte b hb, ih hrest]
    rfl

/-- `queryEscape` output consists of nonzero byte values. -/
theorem queryEscape_facts (s : List Nat) (hs : bytesOk s) :
    bytesOk (queryEscape s) ∧ ∀ x ∈ queryEscape s, x ≠ 0 := by
  induction s with
  | nil => exact ⟨fun x hx => by simp [queryEscape] at hx,
      fun x hx => by simp [queryEscape] at hx⟩
  | cons b rest ih =>
    have hb : b < 256 := hs b (by simp)
    have hrest : bytesOk rest := fun x hx => hs x (by simp [hx])
    obtain ⟨ih1, ih2⟩ := ih hrest
    constructor <;> intro x hx <;>
      rw [queryEscape, List.mem_append] at hx <;>
      rcases hx with hx | hx
    · exact (escapeByte_facts ⟨b, hb⟩ x hx).1
    · exact ih1 x hx
    · exact (escapeByte_facts ⟨b, hb⟩ x hx).2
    · exact ih2 x hx

/-- Lowercase hex digits decode back to the nibble. -/
theorem hexVal_hexDigitLower : ∀ x : Fin 16, hexVal (hexDigitLower x.val) = some x.val := by
  decide

/-- `hex.DecodeString` undoes `hex.EncodeToString`. -/
theorem hexDecode_hexEncode (l : List Nat) (hl : bytesOk l) :
    hexDecode (hexEncode l) = some l := by
  induction l with
  | nil => rfl
  | cons b r ih =>
    have hb : b < 256 := hl b (by simp)
    have hr : bytesOk r := fun x hx => hl x (by simp [hx])
    have h1 := hexVal_hexDigitLower ⟨b / 16, by omega⟩
    have h2 := hexVal_hexDigitLower ⟨b % 16, by omega⟩
    simp only at h1 h2
    simp only [hexEncode, hexDecode, h1, h2, ih hr]
    congr 1
    rw [Nat.div_add_mod]

/-- CBC encryption preserves the length of block-aligned input. -/
theorem cbcEncrypt_length (c : BlockCipher) : ∀ (n : Nat) (prev pt : List Nat),
    pt.length = n → pt.length % 16 = 0 → prev.length = 16 →
    (cbcEncrypt c prev pt).length = pt.length := by
  intro n
  induction n using Nat.strong_induction_on with
  | _ n ih =>
    intro prev pt hn hmod hprev
    by_cases hlt : pt.length < 16
    · rw [cbcEncrypt_small c prev pt hlt]
      simp only [List.length_nil]
      omega
    · push_neg at hlt
      have htake : (pt.take 16).length = 16 := by rw [List.length_take]; omega
      have hblk : (c.enc (xorBytes (pt.take 16) prev)).length = 16 := by
        apply c.enc_len
        rw [xorBytes_length, htake, hprev]
        simp
      have hsplit : cbcEncrypt c prev pt =
          c.enc (xorBytes (pt.take 16) prev) ++
          cbcEncrypt c (c.enc (xorBytes (pt.take 16) prev)) (pt.drop 16) := by
        conv_lhs => rw [← List.take_append_drop 16 pt]
        exact cbcEncrypt_block c prev _ _ htake
      rw [hsplit, List.length_append, hblk,
        ih (pt.length - 16) (by omega) _ (pt.drop 16) (by simp) (by simp; omega) hblk]
      simp only [List.length_drop]
      omega

/-- CBC encryption of byte values yields byte values. -/
theorem cbcEncrypt_bytesOk (c : BlockCipher) : ∀ (n : Nat) (prev pt : List Nat),
    pt.length = n → bytesOk pt → prev.length = 16 → bytesOk prev →
    bytesOk (cbcEncrypt c prev pt) := by
  intro n
  induction n using Nat.strong_induction_on with
  | _ n ih =>
    intro prev pt hn hpt hprev hprevOk
    by_cases hlt : pt.length < 16
    · rw [cbcEncrypt_small c prev pt hlt]
      intro x hx
      simp at hx
    · push_neg at hlt
      have htake : (pt.take 16).length = 16 := by rw [List.length_take]; omega
      have htakeOk : bytesOk (pt.take 16) :=
        fun x hx => hpt x (List.mem_of_mem_take hx)
      have hxb : (xorBytes (pt.take 16) prev).length = 16 := by
        rw [xorBytes_length, htake, hprev]
        simp
      have hxbOk : bytesOk (xorBytes (pt.take 16) prev) :=
        xorBytes_bytesOk _ _ htakeOk hprevOk
      have hblk : (c.enc (xorBytes (pt.take 16) prev)).length = 16 := c.enc_len _ hxb
      have hblkOk : bytesOk (c.enc (xorBytes (pt.take 16) prev)) :=
        c.enc_bytes _ hxb hxbOk
      have hsplit : cbcEncrypt c prev pt =
          c.enc (xorBytes (pt.take 16) prev) ++
          cbcEncrypt c (c.enc (xorBytes (pt.take 16) prev)) (pt.drop 16) := by
        conv_lhs => rw [← List.take_append_drop 16 pt]
        exact cbcEncrypt_block c prev _ _ htake
      rw [hsplit]
      intro x hx
      rw [List.mem_append] at hx
      rcases hx with hx | hx
      · exact hblkOk x hx
      · exact ih (pt.length - 16) (by omega) _ (pt.drop 16) (by simp)
          (fun y hy => hpt y (List.mem_of_mem_drop hy)) hblk hblkOk x hx

/-- CBC decryption preserves the length of block-aligned input. -/
theorem cbcDecrypt_length (c : BlockCipher) : ∀ (n : Nat) (prev ct : List Nat),
    ct.length = n → ct.length % 16 = 0 → prev.length = 16 →
    (cbcDecrypt c prev ct).length = ct.length := by
  intro n
  induction n using Nat.strong_induction_on with
  | _ n ih =>
    intro prev ct hn hmod hprev
    by_cases hlt : ct.length < 16
    · rw [cbcDecrypt_small c prev ct hlt]
      simp only [List.length_nil]
      omega
    · push_neg at hlt
      have htake : (ct.take 16).length = 16 := by rw [List.length_take]; omega
      have hblk : (c.dec (ct.take 16)).length = 16 := c.dec_len _ htake
      have hsplit : cbcDecrypt c prev ct =
          xorBytes (c.dec (ct.take 16)) prev ++
          cbcDecrypt c (ct.take 16) (ct.drop 16) := by
        conv_lhs => rw [← List.take_append_drop 16 ct]
        exact cbcDecrypt_block c prev _ _ htake
      rw [hsplit, List.length_append, xorBytes_length, hblk, hprev,
        ih (ct.length - 16) (by omega) _ (ct.drop 16) (by simp) (by simp; omega) htake]
      simp only [List.length_drop]
      omega

/-- The CBC decryption loop undoes the CBC encryption loop (under the
block-cipher contract). -/
theorem cbc_roundtrip (c : BlockCipher) : ∀ (n : Nat) (prev pt : List Nat),
    pt.length = n → pt.length % 16 = 0 → bytesOk pt →
    prev.length = 16 → bytesOk prev →
    cbcDecrypt c prev (cbcEncrypt c prev pt) = pt := by
  intro n
  induction n using Nat.strong_induction_on with
  | _ n ih =>
    intro prev pt hn hmod hpt hprev hprevOk
    by_cases hlt : pt.length < 16
    · have h0 : pt.length = 0 := by omega
      obtain rfl : pt = [] := List.length_eq_zero.mp h0
      rw [cbcEncrypt_small c prev [] (by simp), cbcDecrypt_small c prev [] (by simp)]
    · push_neg at hlt
      have htake : (pt.take 16).length = 16 := by rw [List.length_take]; omega
      have htakeOk : bytesOk (pt.take 16) :=
        fun x hx => hpt x (List.mem_of_mem_take hx)
      have hxb : (xorBytes (pt.take 16) prev).length = 16 := by
        rw [xorBytes_length, htake, hprev]
        simp
      have hxbOk : bytesOk (xorBytes (pt.take 16) prev) :=
        xorBytes_bytesOk _ _ htakeOk hprevOk
      have hblk : (c.enc (xorBytes (pt.take 16) prev)).length = 16 := c.enc_len _ hxb
      have hblkOk : bytesOk (c.enc (xorBytes (pt.take 16) prev)) :=
        c.enc_bytes _ hxb hxbOk
      have hsplit : cbcEncrypt c prev pt =
          c.enc (xorBytes (pt.take 16) prev) ++
          cbcEncrypt c (c.enc (xorBytes (pt.take 16) prev)) (pt.drop 16) := by
        conv_lhs => rw [← List.take_append_drop 16 pt]
        exact cbcEncrypt_block c prev _ _ htake
      rw [hsplit, cbcDecrypt_block c prev _ _ hblk,
        c.dec_enc _ hxb hxbOk,
        xorBytes_cancel (pt.take 16) prev (by rw [htake, hprev]),
        ih (pt.length - 16) (by omega) _ (pt.drop 16) (by simp) (by simp; omega)
          (fun y hy => hpt y (List.mem_of_mem_drop hy)) hblk hblkOk]
      exact List.take_append_drop 16 pt

/-- Stripping trailing zeros from a zero-padded string whose body has no
zero bytes recovers the body. -/
theorem stripTrailingZeros_append_zeros (e : List Nat) (k : Nat)
    (he : ∀ x ∈ e, x ≠ 0) :
    stripTrailingZeros (e ++ List.replicate k 0) = e := by
  unfold stripTrailingZeros
  rw [List.reverse_append, List.reverse_replicate,
    List.dropWhile_append_of_pos (by intro a ha; rw [List.eq_of_mem_replicate ha]; simp)]
  have hself : List.dropWhile (fun x => decide (x = 0)) e.reverse = e.reverse := by
    cases herev : e.reverse with
    | nil => rfl
    | cons x xs =>
      have hx : x ∈ e := by
        have hmem : x ∈ e.reverse := by rw [herev]; simp
        simpa using hmem
      rw [List.dropWhile_cons_of_neg]
      simp [he x hx]
  rw [hself, List.reverse_reverse]

/-- C2: the filename codec round-trips — for every byte string of at most
255 bytes and every key hex-decoding to 32 bytes,
`DecryptFilename(k, EncryptFilename(k, s)) = s`. -/
theorem filename_roundtrip (c : BlockCipher) (keyHex s : List Nat)
    (hs : bytesOk s) (hlen : s.length ≤ 255)
    (hkey : ∃ key, hexDecode keyHex = some key ∧ key.length = 32) :
    ∃ ct, EncryptFilename c keyHex s = .ok ct ∧
      DecryptFilename c keyHex ct = .ok s := by
  obtain ⟨key, hkd, hkl⟩ := hkey
  obtain ⟨heOk, heNz⟩ := queryEscape_facts s hs
  have hplainMod : (queryEscape s ++ List.replicate
      (if 16 - (queryEscape s).length % 16 = 16 then 0
       else 16 - (queryEscape s).length % 16) 0).length % 16 = 0 := by
    rw [List.length_append, List.length_replicate]
    split_ifs with h16 <;> omega
  have hplainOk : bytesOk (queryEscape s ++ List.replicate
      (if 16 - (queryEscape s).length % 16 = 16 then 0
       else 16 - (queryEscape s).length % 16) 0) := by
    intro x hx
    rw [List.mem_append] at hx
    rcases hx with hx | hx
    · exact heOk x hx
    · rw [List.eq_of_mem_replicate hx]; omega
  have hfixedLen : (fixedIV : List Nat).length = 16 := rfl
  have hfixedOk : bytesOk fixedIV := by decide
  have hctLen := cbcEncrypt_length c _ fixedIV _ rfl hplainMod hfixedLen
  have hctOk := cbcEncrypt_bytesOk c _ fixedIV _ rfl hplainOk hfixedLen hfixedOk
  refine ⟨hexEncode (cbcEncrypt c fixedIV (queryEscape s ++ List.replicate
      (if 16 - (queryEscape s).length % 16 = 16 then 0
       else 16 - (queryEscape s).length % 16) 0)), ?_, ?_⟩
  · unfold EncryptFilename
    rw [hkd]
    dsimp only
    rw [if_neg (by simp [hkl])]
  · unfold DecryptFilename
    rw [hkd]
    dsimp only
    rw [if_neg (by simp [hkl]), hexDecode_hexEncode _ hctOk]
    dsimp only
    rw [if_neg (by rw [hctLen, hplainMod]; exact fun h => h rfl)]
    rw [cbc_roundtrip c _ fixedIV _ rfl hplainMod hplainOk hfixedLen hfixedOk]
    rw [stripTrailingZeros_append_zeros _ _ heNz]
    rw [queryUnescape_queryEscape s hs]

/-- C2 witness: the codec round-trips on `"hello.txt"` with the identity
block cipher and an all-zero key. -/
theorem filename_roundtrip_witness :
    ∃ ct, EncryptFilename idCipher (List.replicate 64 48) (asciiBytes "hello.txt") = .ok ct ∧
      DecryptFilename idCipher (List.replicate 64 48) ct = .ok (asciiBytes "hello.txt") :=
  filename_roundtrip idCipher (List.replicate 64 48) (asciiBytes "hello.txt")
    (by decide) (by decide) ⟨List.replicate 32 0, by decide, by decide⟩

/-- C3 counterexample: the claim fails on the code in two places.  For the
empty filename the escaped input is empty, no pad block is added, and the
ciphertext is empty — not the claimed non-zero multiple
`16·⌈max(1,0)/16⌉ = 16`.  And a space is escaped as `+` (byte 43), not as
`%20` (bytes 37,50,48), since the code uses Go `url.QueryEscape`. -/
theorem EncryptFilename_claim_counterexample :
    EncryptFilename idCipher (List.replicate 64 48) [] = .ok [] ∧
    16 * ((max 1 (queryEscape []).length + 15) / 16) = 16 ∧
    ([] : List Nat).length ≠ 16 ∧
    queryEscape [32] = [43] ∧ [43] ≠ [37, 50, 48] := by
  refine ⟨?_, by decide, by decide, by decide, by decide⟩
  unfold EncryptFilename
  rw [show hexDecode (List.replicate 64 48) = some (List.replicate 32 0) from by decide]
  dsimp only
  rw [if_neg (by decide)]
  rw [show (queryEscape [] ++ List.replicate
      (if 16 - (queryEscape []).length % 16 = 16 then 0
       else 16 - (queryEscape []).length % 16) 0) = ([] : List Nat) from by decide]
  rw [cbcEncrypt_small idCipher fixedIV [] (by simp)]
  rfl

/-- C3 (amended): `EncryptFilename` escapes the filename with Go
`url.QueryEscape` (space becomes `+`), pads with `0x00` to a multiple of 16
adding no extra block when already a multiple (so an empty escape yields an
empty ciphertext), CBC-encrypts under the fixed IV and returns lowercase
hex; the ciphertext byte length is `16·⌈|QueryEscape(name)|/16⌉`. -/
theorem EncryptFilename_structure (c : BlockCipher) (keyHex s : List Nat)
    (hkey : ∃ key, hexDecode keyHex = some key ∧ key.length = 32) :
    EncryptFilename c keyHex s = .ok (hexEncode (cbcEncrypt c fixedIV
      (queryEscape s ++ List.replicate
        (if 16 - (queryEscape s).length % 16 = 16 then 0
         else 16 - (queryEscape s).length % 16) 0))) ∧
    (cbcEncrypt c fixedIV (queryEscape s ++ List.replicate
        (if 16 - (queryEscape s).length % 16 = 16 then 0
         else 16 - (queryEscape s).length % 16) 0)).length =
      16 * (((queryEscape s).length + 15) / 16) ∧
    queryEscape [32] = [43] := by
  obtain ⟨key, hkd, hkl⟩ := hkey
  have hplainMod : (queryEscape s ++ List.replicate
      (if 16 - (queryEscape s).length % 16 = 16 then 0
       else 16 - (queryEscape s).length % 16) 0).length % 16 = 0 := by
    rw [List.length_append, List.length_replicate]
    split_ifs with h16 <;> omega
  refine ⟨?_, ?_, by decide⟩
  · unfold EncryptFilename
    rw [hkd]
    dsimp only
    rw [if_neg (by simp [hkl])]
  · rw [cbcEncrypt_length c _ fixedIV _ rfl hplainMod rfl,
      List.length_append, List.length_replicate]
    split_ifs with h16 <;> omega

/-- C3 witness: the amended statement evaluated on a filename containing a
space. -/
theorem EncryptFilename_structure_witness :
    EncryptFilename idCipher (List.replicate 64 48) (asciiBytes "a b") =
      .ok (hexEncode (cbcEncrypt idCipher fixedIV
        (queryEscape (asciiBytes "a b") ++ List.replicate
          (if 16 - (queryEscape (asciiBytes "a b")).length % 16 = 16 then 0
           else 16 - (queryEscape (asciiBytes "a b")).length % 16) 0))) ∧
    (cbcEncrypt idCipher fixedIV (queryEscape (asciiBytes "a b") ++ List.replicate
        (if 16 - (queryEscape (asciiBytes "a b")).length % 16 = 16 then 0
         else 16 - (queryEscape (asciiBytes "a b")).length % 16) 0)).length =
      16 * (((queryEscape (asciiBytes "a b")).length + 15) / 16) ∧
    queryEscape [32] = [43] :=
  EncryptFilename_structure idCipher (List.replicate 64 48) (asciiBytes "a b")
    ⟨List.replicate 32 0, by decide, by decide⟩

/-! ### C1: the streaming Twofish-CBC decryptor -/

/-- Splitting a CBC decryption at a block boundary: the chain continues from
the last ciphertext block of the first part. -/
theorem cbcDecrypt_split (c : BlockCipher) : ∀ (n : Nat) (x y prev : List Nat),
    x.length = n → x ≠ [] → x.length % 16 = 0 →
    cbcDecrypt c prev (x ++ y) =
      cbcDecrypt c prev x ++ cbcDecrypt c (x.drop (x.length - 16)) y := by
  intro n
  induction n using Nat.strong_induction_on with
  | _ n ih =>
    intro x y prev hn hne hmod
    have hpos : 0 < x.length := List.length_pos.mpr hne
    have h16 : 16 ≤ x.length := by omega
    have htake : (x.take 16).length = 16 := by rw [List.length_take]; omega
    by_cases hx16 : x.length = 16
    · have hxtake : x.take 16 = x := List.take_of_length_le (by omega)
      rw [show x.length - 16 = 0 by omega, List.drop_zero]
      calc cbcDecrypt c prev (x ++ y)
          = xorBytes (c.dec x) prev ++ cbcDecrypt c x y := by
            rw [show (x : List Nat) ++ y = x ++ y from rfl,
              cbcDecrypt_block c prev x y (by omega)]
        _ = cbcDecrypt c prev x ++ cbcDecrypt c x y := by
            rw [cbcDecrypt_single c prev x (by omega)]
    · have h32 : 32 ≤ x.length := by omega
      have hrest : x.drop 16 ≠ [] := by
        intro h
        have := congrArg List.length h
        simp at this
        omega
      have hsplit1 : cbcDecrypt c prev (x ++ y) =
          xorBytes (c.dec (x.take 16)) prev ++
            cbcDecrypt c (x.take 16) (x.drop 16 ++ y) := by
        conv_lhs => rw [← List.take_append_drop 16 x, List.append_assoc]
        exact cbcDecrypt_block c prev _ _ htake
      have hsplit2 : cbcDecrypt c prev x =
          xorBytes (c.dec (x.take 16)) prev ++ cbcDecrypt c (x.take 16) (x.drop 16) := by
        conv_lhs => rw [← List.take_append_drop 16 x]
        exact cbcDecrypt_block c prev _ _ htake
      have hdd : (x.drop 16).drop ((x.drop 16).length - 16) = x.drop (x.length - 16) := by
        rw [List.drop_drop]
        congr 1
        simp
        omega
      rw [hsplit1, hsplit2,
        ih (x.length - 16) (by omega) (x.drop 16) y (x.take 16) (by simp) hrest
          (by simp; omega),
        hdd, List.append_assoc]

/-- Dropping the last `pad` bytes of an append whose tail is long enough
only touches the tail. -/
theorem stripLast_append (pad : Nat) (x y : List Nat) (h : pad ≤ y.length) :
    stripLast pad (x ++ y) = x ++ stripLast pad y := by
  unfold stripLast
  rw [List.length_append,
    show x.length + y.length - pad = x.length + (y.length - pad) by omega,
    List.take_append]

theorem stripLast_length (pad : Nat) (l : List Nat) :
    (stripLast pad l).length = l.length - pad := by
  unfold stripLast
  rw [List.length_take]
  omega

/-- One unfolding of `procBody` on block-aligned data. -/
theorem procBody_step (c : BlockCipher) (iv prev : List Nat) (cr : Nat)
    (data : List Nat) (h16 : 16 ≤ data.length) (hcr : 16 ≤ cr)
    (hcrm : cr % 16 = 0) (hdm : data.length % 16 = 0) :
    procBody c iv prev cr data =
      (cbcDecrypt c prev (data.take (min data.length cr)) ++
        (procBody c iv
          (nextState iv ((data.take (min data.length cr)).drop (min data.length cr - 16))
            (cr - min data.length cr)).1
          (nextState iv ((data.take (min data.length cr)).drop (min data.length cr - 16))
            (cr - min data.length cr)).2
          (data.drop (min data.length cr))).1,
       (procBody c iv
          (nextState iv ((data.take (min data.length cr)).drop (min data.length cr - 16))
            (cr - min data.length cr)).1
          (nextState iv ((data.take (min data.length cr)).drop (min data.length cr - 16))
            (cr - min data.length cr)).2
          (data.drop (min data.length cr))).2) := by
  have ht : min data.length cr / 16 * 16 = min data.length cr := by omega
  conv_lhs => unfold procBody
  rw [if_neg (by omega)]
  dsimp only
  rw [dif_neg (by omega : ¬ (min data.length cr / 16 * 16 = 0)), ht]

/-- The first component of the `nextState` pair is a 16-byte block. -/
theorem nextState_fst_length (iv prev1 : List Nat) (cr1 : Nat)
    (hiv : iv.length = 16) (hprev : prev1.length = 16) :
    (nextState iv prev1 cr1).1.length = 16 := by
  unfold nextState
  split <;> assumption

/-- The second component of the `nextState` pair is a positive block
multiple. -/
theorem nextState_snd_inv (iv prev1 : List Nat) (cr1 : Nat) (hm : cr1 % 16 = 0) :
    16 ≤ (nextState iv prev1 cr1).2 ∧ (nextState iv prev1 cr1).2 % 16 = 0 := by
  unfold nextState
  split
  · exact ⟨by norm_num, by norm_num⟩
  · constructor <;> omega

/-- `procBody` output length and state invariants. -/
theorem procBody_spec (c : BlockCipher) (iv : List Nat) (hiv : iv.length = 16) :
    ∀ (n : Nat) (prev : List Nat) (cr : Nat) (data : List Nat), data.length = n →
    prev.length = 16 → 16 ≤ cr → cr % 16 = 0 → data.length % 16 = 0 →
    (procBody c iv prev cr data).1.length = data.length ∧
    (procBody c iv prev cr data).2.1.length = 16 ∧
    16 ≤ (procBody c iv prev cr data).2.2 ∧
    (procBody c iv prev cr data).2.2 % 16 = 0 := by
  intro n
  induction n using Nat.strong_induction_on with
  | _ n ih =>
    intro prev cr data hn hprev hcr hcrm hdm
    by_cases hlt : data.length < 16
    · have hbase : procBody c iv prev cr data = ([], prev, cr) := by
        unfold procBody
        rw [if_pos hlt]
      rw [hbase]
      refine ⟨by simp; omega, hprev, hcr, hcrm⟩
    · push_neg at hlt
      have hminm : min data.length cr % 16 = 0 := by omega
      have hmin16 : 16 ≤ min data.length cr := by omega
      have htakelen : (data.take (min data.length cr)).length = min data.length cr := by
        rw [List.length_take]; omega
      have hst1 : (nextState iv
          ((data.take (min data.length cr)).drop (min data.length cr - 16))
          (cr - min data.length cr)).1.length = 16 := by
        apply nextState_fst_length _ _ _ hiv
        rw [List.length_drop, htakelen]
        omega
      obtain ⟨hst2a, hst2b⟩ := nextState_snd_inv iv
        ((data.take (min data.length cr)).drop (min data.length cr - 16))
        (cr - min data.length cr) (by omega)
      obtain ⟨ih1, ih2, ih3, ih4⟩ := ih (data.length - min data.length cr) (by omega)
        _ _ (data.drop (min data.length cr)) (by simp) hst1 hst2a hst2b
        (by simp; omega)
      rw [procBody_step c iv prev cr data hlt hcr hcrm hdm]
      refine ⟨?_, ih2, ih3, ih4⟩
      rw [List.length_append, ih1,
        cbcDecrypt_length c _ prev _ rfl (by rw [htakelen]; omega) hprev,
        htakelen]
      simp only [List.length_drop]
      omega

/-- `procBody` processes an append compositionally: decrypting `a ++ b` is
decrypting `a` and continuing on `b` from the resulting chain state.  This
is what makes the result independent of the read-boundary placement. -/
theorem procBody_append (c : BlockCipher) (iv : List Nat) (hiv : iv.length = 16) :
    ∀ (n : Nat) (a b prev : List Nat) (cr : Nat), a.length = n →
    a.length % 16 = 0 → b.length % 16 = 0 → prev.length = 16 →
    16 ≤ cr → cr % 16 = 0 →
    procBody c iv prev cr (a ++ b) =
      ((procBody c iv prev cr a).1 ++
        (procBody c iv (procBody c iv prev cr a).2.1 (procBody c iv prev cr a).2.2 b).1,
       (procBody c iv (procBody c iv prev cr a).2.1 (procBody c iv prev cr a).2.2 b).2) := by
  intro n
  induction n using Nat.strong_induction_on with
  | _ n ih =>
    intro a b prev cr hn ham hbm hprev hcr hcrm
    by_cases halt : a.length < 16
    · have ha0 : a = [] := List.length_eq_zero.mp (by omega)
      subst ha0
      have hbase : procBody c iv prev cr [] = ([], prev, cr) := by
        unfold procBody
        rw [if_pos (by simp)]
      rw [List.nil_append, hbase]
      simp
    · push_neg at halt
      by_cases hc : cr ≤ a.length
      · have hm : min (a ++ b : List Nat).length cr = cr := by
          rw [List.length_append]; omega
        have hma : min a.length cr = cr := by omega
        have h1 := procBody_step c iv prev cr (a ++ b)
          (by rw [List.length_append]; omega) hcr hcrm
          (by rw [List.length_append]; omega)
        rw [hm] at h1
        have h2 := procBody_step c iv prev cr a halt hcr hcrm ham
        rw [hma] at h2
        have htk : (a ++ b : List Nat).take cr = a.take cr :=
          List.take_append_of_le_length hc
        have hdr : (a ++ b : List Nat).drop cr = a.drop cr ++ b :=
          List.drop_append_of_le_length hc
        rw [htk, hdr] at h1
        rw [show cr - cr = 0 by omega] at h1 h2
        have hns : nextState iv ((a.take cr).drop (cr - 16)) 0 = (iv, 4194304) := by
          unfold nextState
          rw [if_pos rfl]
        rw [hns] at h1 h2
        have hih := ih (a.length - cr) (by omega) (a.drop cr) b iv 4194304
          (by simp) (by simp; omega) hbm hiv (by norm_num) (by norm_num)
        rw [h1, h2, hih]
        simp [List.append_assoc]
      · push_neg at hc
        by_cases hb0 : b = []
        · subst hb0
          have hbase : procBody c iv (procBody c iv prev cr a).2.1
              (procBody c iv prev cr a).2.2 [] =
              ([], (procBody c iv prev cr a).2) := by
            conv_lhs => unfold procBody
            rw [if_pos (by simp), Prod.mk.eta]
          rw [List.append_nil, hbase]
          simp
        · have hble : 16 ≤ b.length := by
            have : 0 < b.length := List.length_pos.mpr hb0
            omega
          have hcra : 16 ≤ cr - a.length := by omega
          have hm : min (a ++ b : List Nat).length cr =
              a.length + min b.length (cr - a.length) := by
            rw [List.length_append]; omega
          have htb16 : 16 ≤ min b.length (cr - a.length) := by omega
          have h1 := procBody_step c iv prev cr (a ++ b)
            (by rw [List.length_append]; omega) hcr hcrm
            (by rw [List.length_append]; omega)
          rw [hm] at h1
          have h2 := procBody_step c iv prev cr a halt hcr hcrm ham
          rw [show min a.length cr = a.length by omega, List.take_length,
            List.drop_length] at h2
          have hbase : procBody c iv
              (nextState iv (a.drop (a.length - 16)) (cr - a.length)).1
              (nextState iv (a.drop (a.length - 16)) (cr - a.length)).2 [] =
              ([], nextState iv (a.drop (a.length - 16)) (cr - a.length)) := by
            unfold procBody
            rw [if_pos (by simp)]
          rw [hbase] at h2
          have hnsa : nextState iv (a.drop (a.length - 16)) (cr - a.length) =
              (a.drop (a.length - 16), cr - a.length) := by
            unfold nextState
            rw [if_neg (by omega)]
          rw [hnsa] at h2
          dsimp only at h2
          rw [List.append_nil] at h2
          have htk : (a ++ b : List Nat).take (a.length + min b.length (cr - a.length)) =
              a ++ b.take (min b.length (cr - a.length)) :=
            List.take_append _
          have hdr : (a ++ b : List Nat).drop (a.length + min b.length (cr - a.length)) =
              b.drop (min b.length (cr - a.length)) :=
            List.drop_append _
          rw [htk, hdr] at h1
          have hsplit := cbcDecrypt_split c a.length a
            (b.take (min b.length (cr - a.length))) prev rfl
            (by intro h; rw [h] at halt; simp at halt) ham
          rw [hsplit] at h1
          have hdrops : (a ++ b.take (min b.length (cr - a.length))).drop
              (a.length + min b.length (cr - a.length) - 16) =
              (b.take (min b.length (cr - a.length))).drop
                (min b.length (cr - a.length) - 16) := by
            rw [show a.length + min b.length (cr - a.length) - 16 =
              a.length + (min b.length (cr - a.length) - 16) by omega]
            exact List.drop_append _
          rw [hdrops] at h1
          rw [show cr - (a.length + min b.length (cr - a.length)) =
            cr - a.length - min b.length (cr - a.length) by omega] at h1
          have h3 := procBody_step c iv (a.drop (a.length - 16)) (cr - a.length) b
            hble hcra (by omega) hbm
          rw [h1, h2, h3]
          dsimp only
          rw [List.append_assoc]

/-- `procBody` of an empty batch is a no-op. -/
theorem procBody_nil (c : BlockCipher) (iv prev : List Nat) (cr : Nat) :
    procBody c iv prev cr [] = ([], prev, cr) := by
  unfold procBody
  rw [if_pos (by simp)]

/-- One non-terminal pass of `innerLoop`: carve off a batch of `T` bytes,
decrypt it, and continue on the rest with the re-seeded chain state. -/
theorem innerLoop_step (c : BlockCipher) (iv : List Nat) (pad : Nat) (isEOF : Bool)
    (data prev : List Nat) (cr : Nat) (wa : Bool) (out : List Nat) (T : Nat)
    (hT : T = min data.length cr / 16 * 16) (h16 : 16 ≤ data.length) (hcr : 16 ≤ cr)
    (hne : (isEOF && (data.drop T).isEmpty) = false) :
    innerLoop c iv pad isEOF data prev cr wa out =
      innerLoop c iv pad isEOF (data.drop T)
        (nextState iv ((data.take T).drop (T - 16)) (cr - T)).1
        (nextState iv ((data.take T).drop (T - 16)) (cr - T)).2
        (wa || !(cbcDecrypt c prev (data.take T)).isEmpty)
        (out ++ cbcDecrypt c prev (data.take T)) := by
  conv_lhs => unfold innerLoop
  rw [if_neg (by omega)]
  dsimp only
  rw [dif_neg (by omega : ¬ min data.length cr / 16 * 16 = 0)]
  rw [← hT, hne]
  rw [if_neg (by simp)]

/-- The terminal pass of `innerLoop`: the final batch exhausts the data, so
`numPadding` trailing bytes are stripped from its plaintext before it is
flushed. -/
theorem innerLoop_last (c : BlockCipher) (iv : List Nat) (pad : Nat) (isEOF : Bool)
    (data prev : List Nat) (cr : Nat) (wa : Bool) (out : List Nat) (T : Nat)
    (hT : T = min data.length cr / 16 * 16) (h16 : 16 ≤ data.length) (hcr : 16 ≤ cr)
    (hlast : (isEOF && (data.drop T).isEmpty) = true)
    (hpv : ¬ pad > (cbcDecrypt c prev (data.take T)).length) :
    innerLoop c iv pad isEOF data prev cr wa out =
      .ok (data.drop T, (data.take T).drop (T - 16), cr - T,
        wa || !((cbcDecrypt c prev (data.take T)).take
          ((cbcDecrypt c prev (data.take T)).length - pad)).isEmpty,
        out ++ (cbcDecrypt c prev (data.take T)).take
          ((cbcDecrypt c prev (data.take T)).length - pad)) := by
  conv_lhs => unfold innerLoop
  rw [if_neg (by omega)]
  dsimp only
  rw [dif_neg (by omega : ¬ min data.length cr / 16 * 16 = 0)]
  rw [← hT, hlast]
  rw [if_pos rfl]
  rw [if_neg hpv]

/-- On a read that is not the last, `innerLoop` consumes exactly the
block-aligned prefix of its data, producing the same plaintext and chain
state as `procBody` on that prefix, and carries the unaligned tail. -/
theorem innerLoop_nonfinal (c : BlockCipher) (iv : List Nat) (hiv : iv.length = 16)
    (pad : Nat) : ∀ (n : Nat) (data prev : List Nat) (cr : Nat) (wa : Bool)
    (out : List Nat), data.length = n → prev.length = 16 → 16 ≤ cr → cr % 16 = 0 →
    innerLoop c iv pad false data prev cr wa out =
      .ok (data.drop (data.length / 16 * 16),
        (procBody c iv prev cr (data.take (data.length / 16 * 16))).2.1,
        (procBody c iv prev cr (data.take (data.length / 16 * 16))).2.2,
        (wa || !(procBody c iv prev cr (data.take (data.length / 16 * 16))).1.isEmpty),
        out ++ (procBody c iv prev cr (data.take (data.length / 16 * 16))).1) := by
  intro n
  induction n using Nat.strong_induction_on with
  | _ n ih =>
    intro data prev cr wa out hn hprev hcr hcrm
    by_cases hlt : data.length < 16
    · have ha : data.length / 16 * 16 = 0 := by omega
      rw [ha, List.take_zero, List.drop_zero, procBody_nil]
      conv_lhs => unfold innerLoop
      rw [if_pos hlt]
      simp
    · push_neg at hlt
      have hstep := innerLoop_step c iv pad false data prev cr wa out
        (min (data.length / 16 * 16) cr) (by omega) hlt hcr (by rw [Bool.false_and])
      rw [hstep]
      have htlen : (data.take (min (data.length / 16 * 16) cr)).length =
          min (data.length / 16 * 16) cr := by
        rw [List.length_take]; omega
      have ho := cbcDecrypt_length c ((data.take (min (data.length / 16 * 16) cr)).length)
        prev (data.take (min (data.length / 16 * 16) cr)) rfl
        (by rw [htlen]; omega) hprev
      rw [htlen] at ho
      have hone : cbcDecrypt c prev (data.take (min (data.length / 16 * 16) cr)) ≠ [] := by
        intro h
        rw [h] at ho
        simp only [List.length_nil] at ho
        omega
      have hst1 : (nextState iv
          ((data.take (min (data.length / 16 * 16) cr)).drop
            (min (data.length / 16 * 16) cr - 16))
          (cr - min (data.length / 16 * 16) cr)).1.length = 16 := by
        apply nextState_fst_length _ _ _ hiv
        rw [List.length_drop, htlen]
        omega
      obtain ⟨hst2a, hst2b⟩ := nextState_snd_inv iv
        ((data.take (min (data.length / 16 * 16) cr)).drop
          (min (data.length / 16 * 16) cr - 16))
        (cr - min (data.length / 16 * 16) cr) (by omega)
      have hrec := ih ((data.drop (min (data.length / 16 * 16) cr)).length)
        (by simp only [List.length_drop]; omega)
        (data.drop (min (data.length / 16 * 16) cr)) _ _
        (wa || !(cbcDecrypt c prev (data.take (min (data.length / 16 * 16) cr))).isEmpty)
        (out ++ cbcDecrypt c prev (data.take (min (data.length / 16 * 16) cr)))
        rfl hst1 hst2a hst2b
      rw [hrec]
      have hAlen : (data.take (data.length / 16 * 16)).length = data.length / 16 * 16 := by
        rw [List.length_take]; omega
      have hPB := procBody_step c iv prev cr (data.take (data.length / 16 * 16))
        (by rw [hAlen]; omega) hcr hcrm (by rw [hAlen]; omega)
      rw [hAlen] at hPB
      have h1 : (data.take (data.length / 16 * 16)).take
          (min (data.length / 16 * 16) cr) = data.take (min (data.length / 16 * 16) cr) := by
        rw [List.take_take]
        congr 1
        omega
      have h2 : (data.take (data.length / 16 * 16)).drop
          (min (data.length / 16 * 16) cr) =
          (data.drop (min (data.length / 16 * 16) cr)).take
            (data.length / 16 * 16 - min (data.length / 16 * 16) cr) := by
        rw [List.drop_take]
      rw [h1, h2] at hPB
      have hA1 : (data.drop (min (data.length / 16 * 16) cr)).length / 16 * 16 =
          data.length / 16 * 16 - min (data.length / 16 * 16) cr := by
        simp only [List.length_drop]
        omega
      rw [hA1, hPB]
      have hdd : (data.drop (min (data.length / 16 * 16) cr)).drop
          (data.length / 16 * 16 - min (data.length / 16 * 16) cr) =
          data.drop (data.length / 16 * 16) := by
        rw [List.drop_drop]
        congr 1
        omega
      rw [hdd]
      have hoe : (cbcDecrypt c prev (data.take (min (data.length / 16 * 16) cr))).isEmpty
          = false := by
        simp [hone]
      dsimp only
      rw [hoe]
      simp [List.append_assoc, hone]

/-- On the last read, `innerLoop` consumes all of its (block-aligned) data,
emits the `procBody` plaintext with the final `pad` bytes stripped, and
reports that it wrote output. -/
theorem innerLoop_final (c : BlockCipher) (iv : List Nat) (hiv : iv.length = 16)
    (pad : Nat) (hpad : pad ≤ 15) : ∀ (n : Nat) (data prev : List Nat) (cr : Nat)
    (wa : Bool) (out : List Nat), data.length = n → prev.length = 16 →
    16 ≤ cr → cr % 16 = 0 → data.length % 16 = 0 → data ≠ [] →
    ∃ p q, innerLoop c iv pad true data prev cr wa out =
      .ok ([], p, q, true, out ++ stripLast pad (procBody c iv prev cr data).1) := by
  intro n
  induction n using Nat.strong_induction_on with
  | _ n ih =>
    intro data prev cr wa out hn hprev hcr hcrm hdm hne
    have h0 : 0 < data.length := List.length_pos.mpr hne
    have h16 : 16 ≤ data.length := by omega
    by_cases hle : data.length ≤ cr
    · -- the final batch takes everything
      have hoL := cbcDecrypt_length c data.length prev data rfl hdm hprev
      have hlast := innerLoop_last c iv pad true data prev cr wa out data.length
        (by omega) h16 hcr (by simp)
        (by rw [List.take_length, hoL]; omega)
      rw [List.take_length] at hlast
      refine ⟨data.drop (data.length - 16), cr - data.length, ?_⟩
      rw [hlast]
      have hPB := procBody_step c iv prev cr data h16 hcr hcrm hdm
      rw [show min data.length cr = data.length from by omega, List.take_length,
        List.drop_length, procBody_nil] at hPB
      rw [hPB]
      dsimp only
      rw [List.append_nil, List.drop_length]
      have hb : (cbcDecrypt c prev data).take ((cbcDecrypt c prev data).length - pad) ≠
          [] := by
        intro h
        have := congrArg List.length h
        rw [List.length_take, hoL] at this
        simp only [List.length_nil] at this
        omega
      have hstrip : stripLast pad (cbcDecrypt c prev data) =
          (cbcDecrypt c prev data).take ((cbcDecrypt c prev data).length - pad) := rfl
      rw [hstrip]
      simp [hb]
    · -- a full 4 MiB chunk batch, then recurse
      push_neg at hle
      have hd0 : data.drop cr ≠ [] := by
        intro h
        have := congrArg List.length h
        simp only [List.length_drop, List.length_nil] at this
        omega
      have hstep := innerLoop_step c iv pad true data prev cr wa out cr
        (by omega) h16 hcr (by simp [hd0])
      have hns : nextState iv ((data.take cr).drop (cr - 16)) (cr - cr) =
          (iv, 4194304) := by
        rw [Nat.sub_self]
        unfold nextState
        rw [if_pos rfl]
      rw [hns] at hstep
      rw [hstep]
      obtain ⟨p, q, hrec⟩ := ih ((data.drop cr).length)
        (by simp only [List.length_drop]; omega) (data.drop cr) iv 4194304
        (wa || !(cbcDecrypt c prev (data.take cr)).isEmpty)
        (out ++ cbcDecrypt c prev (data.take cr)) rfl hiv (by norm_num) (by norm_num)
        (by simp only [List.length_drop]; omega) hd0
      rw [hrec]
      refine ⟨p, q, ?_⟩
      have hPB := procBody_step c iv prev cr data h16 hcr hcrm hdm
      rw [show min data.length cr = cr from by omega, hns] at hPB
      rw [hPB]
      dsimp only
      have hRlen := (procBody_spec c iv hiv ((data.drop cr).length) iv 4194304
        (data.drop cr) rfl hiv (by norm_num) (by norm_num)
        (by simp only [List.length_drop]; omega)).1
      rw [stripLast_append pad _ _
        (by rw [hRlen]; simp only [List.length_drop]; omega)]
      rw [List.append_assoc]

/-- With `io.EOF` delivered together with the final bytes (`sep = false`),
the outer read loop equals `procBody` over the entire remaining ciphertext
(with the carried bytes in front), with the final `pad` bytes stripped; an
empty remainder flushes nothing and triggers the empty-body check. -/
theorem outerLoop_spec (c : BlockCipher) (iv : List Nat) (hiv : iv.length = 16)
    (pad : Nat) (hpad : pad ≤ 15) : ∀ (n : Nat) (src carry prev : List Nat)
    (cr : Nat) (wa : Bool) (out : List Nat), src.length = n →
    carry.length < 16 → (carry.length + src.length) % 16 = 0 →
    prev.length = 16 → 16 ≤ cr → cr % 16 = 0 →
    (src = [] → outerLoop c iv pad false carry prev cr wa out src =
      if !wa && pad ≠ 0 then .error "unexpected empty body" else .ok out) ∧
    (src ≠ [] → outerLoop c iv pad false carry prev cr wa out src =
      .ok (out ++ stripLast pad (procBody c iv prev cr (carry ++ src)).1)) := by
  intro n
  induction n using Nat.strong_induction_on with
  | _ n ih =>
    intro src carry prev cr wa out hn hclt hm hprev hcr hcrm
    constructor
    · intro hs
      subst hs
      have hc0 : carry = [] := by
        apply List.eq_nil_of_length_eq_zero
        simp only [List.length_nil, Nat.add_zero] at hm
        omega
      subst hc0
      conv_lhs => unfold outerLoop
      rw [dif_pos (by simp)]
      rw [if_neg (by simp)]
    · intro hs
      conv_lhs => unfold outerLoop
      rw [dif_neg (by simp [hs])]
      dsimp only
      simp only [Bool.not_false, Bool.true_and]
      by_cases hle : src.length ≤ 131072
      · -- the first read reaches EOF
        rw [show min src.length 131072 = src.length from by omega, List.take_length]
        obtain ⟨p, q, hinner⟩ := innerLoop_final c iv hiv pad hpad
          ((carry ++ src : List Nat).length) (carry ++ src) prev cr wa out rfl
          hprev hcr hcrm (by rw [List.length_append]; omega)
          (by simp [hs])
        rw [decide_eq_true hle]
        rw [hinner]
        dsimp only
        rw [if_pos rfl, if_neg (by simp), if_neg (by simp)]
      · -- a full 128 KiB read, then recurse
        push_neg at hle
        rw [show min src.length 131072 = 131072 from by omega]
        rw [decide_eq_false (by omega : ¬ src.length ≤ 131072)]
        have hdlen : (carry ++ src.take 131072 : List Nat).length =
            carry.length + 131072 := by
          rw [List.length_append, List.length_take]
          omega
        have hinner := innerLoop_nonfinal c iv hiv pad
          ((carry ++ src.take 131072 : List Nat).length) (carry ++ src.take 131072)
          prev cr wa out rfl hprev hcr hcrm
        rw [hinner]
        dsimp only
        rw [if_neg (by simp)]
        have hAm : (carry ++ src.take 131072 : List Nat).length / 16 * 16 % 16 = 0 := by
          omega
        have hAlen : ((carry ++ src.take 131072 : List Nat).take
            ((carry ++ src.take 131072 : List Nat).length / 16 * 16)).length =
            (carry ++ src.take 131072 : List Nat).length / 16 * 16 := by
          rw [List.length_take]
          omega
        obtain ⟨hq1, hq2, hq3, hq4⟩ := procBody_spec c iv hiv _ prev cr
          ((carry ++ src.take 131072 : List Nat).take
            ((carry ++ src.take 131072 : List Nat).length / 16 * 16)) rfl
          hprev hcr hcrm (by rw [hAlen]; omega)
        have hdne : src.drop 131072 ≠ [] := by
          intro h
          have := congrArg List.length h
          simp only [List.length_drop, List.length_nil] at this
          omega
        have hrec := (ih ((src.drop 131072 : List Nat).length)
          (by simp only [List.length_drop]; omega) (src.drop 131072)
          ((carry ++ src.take 131072 : List Nat).drop
            ((carry ++ src.take 131072 : List Nat).length / 16 * 16))
          _ _
          (wa || !(procBody c iv prev cr
            ((carry ++ src.take 131072 : List Nat).take
              ((carry ++ src.take 131072 : List Nat).length / 16 * 16))).1.isEmpty)
          (out ++ (procBody c iv prev cr
            ((carry ++ src.take 131072 : List Nat).take
              ((carry ++ src.take 131072 : List Nat).length / 16 * 16))).1) rfl
          (by simp only [List.length_drop]; omega)
          (by simp only [List.length_drop, List.length_take, List.length_append]; omega)
          hq2 hq3 hq4).2 hdne
        rw [hrec]
        have hsplit : (carry ++ src.take 131072 : List Nat).take
              ((carry ++ src.take 131072 : List Nat).length / 16 * 16) ++
            ((carry ++ src.take 131072 : List Nat).drop
              ((carry ++ src.take 131072 : List Nat).length / 16 * 16) ++
              src.drop 131072) = carry ++ src := by
          rw [← List.append_assoc, List.take_append_drop, List.append_assoc,
            List.take_append_drop]
        have hPB := procBody_append c iv hiv
          (((carry ++ src.take 131072 : List Nat).take
            ((carry ++ src.take 131072 : List Nat).length / 16 * 16)).length)
          ((carry ++ src.take 131072 : List Nat).take
            ((carry ++ src.take 131072 : List Nat).length / 16 * 16))
          ((carry ++ src.take 131072 : List Nat).drop
            ((carry ++ src.take 131072 : List Nat).length / 16 * 16) ++
            src.drop 131072)
          prev cr rfl (by rw [hAlen]; omega)
          (by simp only [List.length_append, List.length_drop, List.length_take]; omega)
          hprev hcr hcrm
        rw [hsplit] at hPB
        rw [hPB]
        dsimp only
        have hblen := (procBody_spec c iv hiv _ _ _
          ((carry ++ src.take 131072 : List Nat).drop
            ((carry ++ src.take 131072 : List Nat).length / 16 * 16) ++
            src.drop 131072) rfl hq2 hq3 hq4
          (by simp only [List.length_append, List.length_drop, List.length_take];
              omega)).1
        rw [stripLast_append pad _ _
          (by rw [hblen]
              simp only [List.length_append, List.length_drop, List.length_take]
              omega)]
        rw [List.append_assoc]

/-- With the final bytes delivered under a nil error and `io.EOF` alone on a
later empty read (`sep = true`), `lastRead` is never set, so the outer read
loop flushes the full `procBody` plaintext without ever stripping the
padding. -/
theorem outerLoop_sep_spec (c : BlockCipher) (iv : List Nat) (hiv : iv.length = 16)
    (pad : Nat) : ∀ (n : Nat) (src carry prev : List Nat)
    (cr : Nat) (wa : Bool) (out : List Nat), src.length = n →
    carry.length < 16 → (carry.length + src.length) % 16 = 0 →
    prev.length = 16 → 16 ≤ cr → cr % 16 = 0 →
    (src = [] → outerLoop c iv pad true carry prev cr wa out src =
      if !wa && pad ≠ 0 then .error "unexpected empty body" else .ok out) ∧
    (src ≠ [] → outerLoop c iv pad true carry prev cr wa out src =
      .ok (out ++ (procBody c iv prev cr (carry ++ src)).1)) := by
  intro n
  induction n using Nat.strong_induction_on with
  | _ n ih =>
    intro src carry prev cr wa out hn hclt hm hprev hcr hcrm
    constructor
    · intro hs
      subst hs
      have hc0 : carry = [] := by
        apply List.eq_nil_of_length_eq_zero
        simp only [List.length_nil, Nat.add_zero] at hm
        omega
      subst hc0
      conv_lhs => unfold outerLoop
      rw [dif_pos (by simp)]
      rw [if_neg (by simp)]
    · intro hs
      have hsl : 0 < src.length := List.length_pos.mpr hs
      conv_lhs => unfold outerLoop
      rw [dif_neg (by simp [hs])]
      dsimp only
      simp only [Bool.not_true, Bool.false_and]
      by_cases hle : src.length ≤ 131072
      · -- the read that exhausts the source, still with a nil error
        rw [show min src.length 131072 = src.length from by omega, List.take_length]
        have hinner := innerLoop_nonfinal c iv hiv pad
          ((carry ++ src : List Nat).length) (carry ++ src) prev cr wa out rfl
          hprev hcr hcrm
        rw [hinner]
        dsimp only
        rw [if_neg (by simp)]
        have hA : (carry ++ src : List Nat).length / 16 * 16 =
            (carry ++ src : List Nat).length := by
          rw [List.length_append]
          omega
        rw [hA, List.take_length]
        simp only [List.drop_length]
        obtain ⟨hq1, hq2, hq3, hq4⟩ := procBody_spec c iv hiv
          ((carry ++ src : List Nat).length) prev cr (carry ++ src) rfl
          hprev hcr hcrm (by rw [List.length_append]; omega)
        have hP1 : (procBody c iv prev cr (carry ++ src)).1 ≠ [] := by
          intro h
          have := congrArg List.length h
          rw [hq1, List.length_append] at this
          simp only [List.length_nil] at this
          omega
        have hrec := (ih 0 (by omega) [] []
          (procBody c iv prev cr (carry ++ src)).2.1
          (procBody c iv prev cr (carry ++ src)).2.2
          (wa || !(procBody c iv prev cr (carry ++ src)).1.isEmpty)
          (out ++ (procBody c iv prev cr (carry ++ src)).1) rfl
          (by simp) (by simp) hq2 hq3 hq4).1 rfl
        rw [hrec]
        have hwa1 : (wa || !(procBody c iv prev cr (carry ++ src)).1.isEmpty) =
            true := by
          simp [hP1]
        rw [hwa1]
        rw [if_neg (by simp)]
      · -- a full 128 KiB read, then recurse
        push_neg at hle
        rw [show min src.length 131072 = 131072 from by omega]
        have hinner := innerLoop_nonfinal c iv hiv pad
          ((carry ++ src.take 131072 : List Nat).length) (carry ++ src.take 131072)
          prev cr wa out rfl hprev hcr hcrm
        rw [hinner]
        dsimp only
        rw [if_neg (by simp)]
        have hAlen : ((carry ++ src.take 131072 : List Nat).take
            ((carry ++ src.take 131072 : List Nat).length / 16 * 16)).length =
            (carry ++ src.take 131072 : List Nat).length / 16 * 16 := by
          rw [List.length_take]
          omega
        obtain ⟨hq1, hq2, hq3, hq4⟩ := procBody_spec c iv hiv _ prev cr
          ((carry ++ src.take 131072 : List Nat).take
            ((carry ++ src.take 131072 : List Nat).length / 16 * 16)) rfl
          hprev hcr hcrm (by rw [hAlen]; omega)
        have hdne : src.drop 131072 ≠ [] := by
          intro h
          have := congrArg List.length h
          simp only [List.length_drop, List.length_nil] at this
          omega
        have hrec := (ih ((src.drop 131072 : List Nat).length)
          (by simp only [List.length_drop]; omega) (src.drop 131072)
          ((carry ++ src.take 131072 : List Nat).drop
            ((carry ++ src.take 131072 : List Nat).length / 16 * 16))
          _ _
          (wa || !(procBody c iv prev cr
            ((carry ++ src.take 131072 : List Nat).take
              ((carry ++ src.take 131072 : List Nat).length / 16 * 16))).1.isEmpty)
          (out ++ (procBody c iv prev cr
            ((carry ++ src.take 131072 : List Nat).take
              ((carry ++ src.take 131072 : List Nat).length / 16 * 16))).1) rfl
          (by simp only [List.length_drop]; omega)
          (by simp only [List.length_drop, List.length_take, List.length_append]; omega)
          hq2 hq3 hq4).2 hdne
        rw [hrec]
        have hsplit : (carry ++ src.take 131072 : List Nat).take
              ((carry ++ src.take 131072 : List Nat).length / 16 * 16) ++
            ((carry ++ src.take 131072 : List Nat).drop
              ((carry ++ src.take 131072 : List Nat).length / 16 * 16) ++
              src.drop 131072) = carry ++ src := by
          rw [← List.append_assoc, List.take_append_drop, List.append_assoc,
            List.take_append_drop]
        have hPB := procBody_append c iv hiv
          (((carry ++ src.take 131072 : List Nat).take
            ((carry ++ src.take 131072 : List Nat).length / 16 * 16)).length)
          ((carry ++ src.take 131072 : List Nat).take
            ((carry ++ src.take 131072 : List Nat).length / 16 * 16))
          ((carry ++ src.take 131072 : List Nat).drop
            ((carry ++ src.take 131072 : List Nat).length / 16 * 16) ++
            src.drop 131072)
          prev cr rfl (by rw [hAlen]; omega)
          (by simp only [List.length_append, List.length_drop, List.length_take]; omega)
          hprev hcr hcrm
        rw [hsplit] at hPB
        rw [hPB]
        dsimp only
        rw [List.append_assoc]

/-- C1: what `DecryptTwofishCBCStream` emits depends on the reader's legal
`io.EOF` delivery.  It always reads exactly 32 cipher bytes of header
(failing when fewer are available), CBC-decrypts them under the fixed IV
`"1234567887654321"` into the content IV (bytes 0..15) and `numPadding`
(byte 16), and fails on a nonzero version byte (plaintext byte 17).  But the
padding strip hinges on `lastRead`, which requires `io.EOF` on the read that
yields the final bytes: with that delivery (`sep = false`) the function
strips exactly `numPadding` trailing bytes and emits `len − 32 − numPadding`
bytes as the claim says, whereas when the reader returns the final bytes
under a nil error and `io.EOF` alone on one further empty read
(`sep = true`, as `bytes.Reader` and chunked HTTP bodies do) `lastRead` is
never true, nothing is stripped, and `len − 32` bytes are emitted — so for
every stream with nonzero `numPadding` the claimed length is wrong under
that reader. -/
theorem DecryptTwofishCBCStream_reader_dependent (c : BlockCipher)
    (key src : List Nat) (hkey : key.length = 32) :
    (∀ sep, src.length < 32 →
      DecryptTwofishCBCStream c sep key src = .error "short header") ∧
    (∀ sep, 32 ≤ src.length → (streamHeaderPlain c src).getD 17 0 ≠ 0 →
      DecryptTwofishCBCStream c sep key src = .error "unsupported file version") ∧
    (32 ≤ src.length → src.length % 16 = 0 →
      (streamHeaderPlain c src).getD 17 0 = 0 →
      (streamHeaderPlain c src).getD 16 0 ≤ 15 →
      (src.length = 32 → (streamHeaderPlain c src).getD 16 0 = 0) →
      (DecryptTwofishCBCStream c false key src =
        .ok (stripLast ((streamHeaderPlain c src).getD 16 0)
          (streamBodyPlain c src)) ∧
       (stripLast ((streamHeaderPlain c src).getD 16 0)
          (streamBodyPlain c src)).length =
         src.length - 32 - (streamHeaderPlain c src).getD 16 0) ∧
      (DecryptTwofishCBCStream c true key src = .ok (streamBodyPlain c src) ∧
       (streamBodyPlain c src).length = src.length - 32) ∧
      ((streamHeaderPlain c src).getD 16 0 ≠ 0 →
        (streamBodyPlain c src).length ≠
          src.length - 32 - (streamHeaderPlain c src).getD 16 0)) := by
  have hkc : ¬(key.length ≠ 16 ∧ key.length ≠ 24 ∧ key.length ≠ 32) := by
    rw [hkey]; simp
  refine ⟨?_, ?_, ?_⟩
  · intro sep hshort
    unfold DecryptTwofishCBCStream
    rw [if_neg hkc, if_pos hshort]
  · intro sep hlen hver
    unfold DecryptTwofishCBCStream
    rw [if_neg hkc, if_neg (by omega)]
    dsimp only
    rw [← show streamHeaderPlain c src = cbcDecrypt c fixedIV (src.take 32) from rfl]
    rw [if_pos hver]
  · intro hlen hmod hver hpad hbody
    have hH32 : (streamHeaderPlain c src).length = 32 := by
      unfold streamHeaderPlain
      rw [cbcDecrypt_length c ((src.take 32).length) fixedIV (src.take 32) rfl
        (by rw [List.length_take]; omega) (by decide)]
      rw [List.length_take]; omega
    have hciv : ((streamHeaderPlain c src).take 16).length = 16 := by
      rw [List.length_take, hH32]
      decide
    have hOL := outerLoop_spec c ((streamHeaderPlain c src).take 16) hciv
      ((streamHeaderPlain c src).getD 16 0) hpad ((src.drop 32 : List Nat).length)
      (src.drop 32) [] ((streamHeaderPlain c src).take 16) (4194304 - 32) false []
      rfl (by simp) (by simp only [List.length_nil, List.length_drop, Nat.zero_add]; omega)
      hciv (by norm_num) (by norm_num)
    have hOLs := outerLoop_sep_spec c ((streamHeaderPlain c src).take 16) hciv
      ((streamHeaderPlain c src).getD 16 0) ((src.drop 32 : List Nat).length)
      (src.drop 32) [] ((streamHeaderPlain c src).take 16) (4194304 - 32) false []
      rfl (by simp) (by simp only [List.length_nil, List.length_drop, Nat.zero_add]; omega)
      hciv (by norm_num) (by norm_num)
    by_cases h32 : src.length = 32
    · have hd : src.drop 32 = [] := by
        apply List.eq_nil_of_length_eq_zero
        rw [List.length_drop]
        omega
      have hres := hOL.1 hd
      have hress := hOLs.1 hd
      have hp0 : (streamHeaderPlain c src).getD 16 0 = 0 := hbody h32
      have hbp : streamBodyPlain c src = [] := by
        simp only [streamBodyPlain]
        rw [hd, procBody_nil]
      refine ⟨⟨?_, ?_⟩, ⟨?_, ?_⟩, ?_⟩
      · unfold DecryptTwofishCBCStream
        rw [if_neg hkc, if_neg (by omega)]
        dsimp only
        rw [← show streamHeaderPlain c src = cbcDecrypt c fixedIV (src.take 32) from rfl]
        rw [if_neg (not_not_intro hver)]
        rw [hd] at hres
        rw [hd, hres, hp0]
        rw [if_neg (by simp)]
        rw [hbp]
        rfl
      · rw [stripLast_length, hp0, h32, hbp]
        rfl
      · unfold DecryptTwofishCBCStream
        rw [if_neg hkc, if_neg (by omega)]
        dsimp only
        rw [← show streamHeaderPlain c src = cbcDecrypt c fixedIV (src.take 32) from rfl]
        rw [if_neg (not_not_intro hver)]
        rw [hd] at hress
        rw [hd, hress, hp0]
        rw [if_neg (by simp)]
        rw [hbp]
      · rw [hbp, h32]
        rfl
      · intro hpne
        exact absurd hp0 hpne
    · have hd : src.drop 32 ≠ [] := by
        intro h
        have := congrArg List.length h
        simp only [List.length_drop, List.length_nil] at this
        omega
      have hres := hOL.2 hd
      have hress := hOLs.2 hd
      simp only [List.nil_append] at hres hress
      have hPBlen := (procBody_spec c ((streamHeaderPlain c src).take 16) hciv
        ((src.drop 32 : List Nat).length) ((streamHeaderPlain c src).take 16)
        (4194304 - 32) (src.drop 32) rfl hciv (by norm_num) (by norm_num)
        (by simp only [List.length_drop]; omega)).1
      have hbpl : (streamBodyPlain c src).length = src.length - 32 := by
        simp only [streamBodyPlain]
        rw [hPBlen, List.length_drop]
      refine ⟨⟨?_, ?_⟩, ⟨?_, ?_⟩, ?_⟩
      · unfold DecryptTwofishCBCStream
        rw [if_neg hkc, if_neg (by omega)]
        dsimp only
        rw [← show streamHeaderPlain c src = cbcDecrypt c fixedIV (src.take 32) from rfl]
        rw [if_neg (not_not_intro hver)]
        rw [hres]
        simp only [streamBodyPlain]
      · rw [stripLast_length, hbpl]
      · unfold DecryptTwofishCBCStream
        rw [if_neg hkc, if_neg (by omega)]
        dsimp only
        rw [← show streamHeaderPlain c src = cbcDecrypt c fixedIV (src.take 32) from rfl]
        rw [if_neg (not_not_intro hver)]
        rw [hress]
        simp only [streamBodyPlain]
      · exact hbpl
      · intro hpne
        rw [hbpl]
        omega

/-- C1 witness: the same concrete 48-byte stream under the identity block
cipher, read both ways.  The header blocks `0^16 ‖ (7,0^15)` decrypt to
`fixedIV ‖ (7,0^15)` (`numPadding = 7`, version byte 0) and the body block
`0^16` decrypts to `fixedIV`.  With `io.EOF` on the final read the last 7
bytes are stripped (9 = 48 − 32 − 7 bytes emitted); with a separate
`(0, io.EOF)` read all 16 body bytes come out unstripped, refuting the
claimed length. -/
theorem DecryptTwofishCBCStream_reader_dependent_witness :
    DecryptTwofishCBCStream idCipher false (List.replicate 32 0)
      (List.replicate 16 0 ++ ((7 : Nat) :: List.replicate 15 0) ++
        List.replicate 16 0) = .ok [49, 50, 51, 52, 53, 54, 55, 56, 56] ∧
    DecryptTwofishCBCStream idCipher true (List.replicate 32 0)
      (List.replicate 16 0 ++ ((7 : Nat) :: List.replicate 15 0) ++
        List.replicate 16 0) =
      .ok [49, 50, 51, 52, 53, 54, 55, 56, 56, 55, 54, 53, 52, 51, 50, 49] ∧
    (streamBodyPlain idCipher
      (List.replicate 16 0 ++ ((7 : Nat) :: List.replicate 15 0) ++
        List.replicate 16 0)).length ≠ 48 - 32 - 7 := by
  have h1 : streamHeaderPlain idCipher
      (List.replicate 16 0 ++ ((7 : Nat) :: List.replicate 15 0) ++
        List.replicate 16 0) = fixedIV ++ ((7 : Nat) :: List.replicate 15 0) := by
    show cbcDecrypt idCipher fixedIV _ = _
    rw [show (List.replicate 16 0 ++ ((7 : Nat) :: List.replicate 15 0) ++
        List.replicate 16 0 : List Nat).take 32 =
      List.replicate 16 0 ++ ((7 : Nat) :: List.replicate 15 0) from by decide]
    rw [cbcDecrypt_block idCipher fixedIV _ _ (by decide)]
    rw [cbcDecrypt_single idCipher _ _ (by decide)]
    decide
  have h2 : streamBodyPlain idCipher
      (List.replicate 16 0 ++ ((7 : Nat) :: List.replicate 15 0) ++
        List.replicate 16 0) = fixedIV := by
    simp only [streamBodyPlain]
    rw [h1]
    rw [show ((fixedIV ++ ((7 : Nat) :: List.replicate 15 0)).take 16) = fixedIV from
      by decide]
    rw [show (List.replicate 16 0 ++ ((7 : Nat) :: List.replicate 15 0) ++
        List.replicate 16 0 : List Nat).drop 32 = List.replicate 16 0 from by decide]
    rw [procBody_step idCipher fixedIV fixedIV (4194304 - 32) (List.replicate 16 0)
      (by decide) (by norm_num) (by norm_num) (by decide)]
    rw [show min (List.replicate 16 (0 : Nat)).length (4194304 - 32) = 16 from
      by decide]
    rw [show (List.replicate 16 (0 : Nat)).take 16 = List.replicate 16 0 from by decide]
    rw [show (List.replicate 16 (0 : Nat)).drop 16 = [] from by decide]
    rw [procBody_nil]
    rw [cbcDecrypt_single idCipher _ _ (by decide)]
    decide
  have h := (DecryptTwofishCBCStream_reader_dependent idCipher (List.replicate 32 0)
      (List.replicate 16 0 ++ ((7 : Nat) :: List.replicate 15 0) ++
        List.replicate 16 0) (by decide)).2.2
    (by decide) (by decide) (by rw [h1]; decide) (by rw [h1]; decide)
    (by intro hx; exact absurd hx (by decide))
  refine ⟨?_, ?_, ?_⟩
  · rw [h.1.1]
    rw [show (streamHeaderPlain idCipher
        (List.replicate 16 0 ++ ((7 : Nat) :: List.replicate 15 0) ++
          List.replicate 16 0)).getD 16 0 = 7 from by rw [h1]; decide]
    rw [h2]
    decide
  · rw [h.2.1.1, h2]
    decide
  · have h3 := h.2.2 (by rw [h1]; decide)
    rw [show (streamHeaderPlain idCipher
        (List.replicate 16 0 ++ ((7 : Nat) :: List.replicate 15 0) ++
          List.replicate 16 0)).getD 16 0 = 7 from by rw [h1]; decide] at h3
    rw [show (List.replicate 16 0 ++ ((7 : Nat) :: List.replicate 15 0) ++
        List.replicate 16 0 : List Nat).length = 48 from by decide] at h3
    exact h3

end Icedrive
